import Mathlib

/-!
Verification of the variance-inference pass
(`src/librustc/middle/typeck/variance.rs`).

The pass infers the variance of type and lifetime parameters of enums,
structs and traits.  It has three phases sharing one term pool:

1. an indexer assigning a dense inferred index to each inferable parameter,
2. a constraint generator traversing type structure and emitting
   inequalities `V(i) <= term`,
3. a glb fixed-point solver over the four-point variance lattice,
   followed by publication of grouped results.

The definitions below are a shallow embedding of that source file.  Arena
pointers become plain values, the `HashMap`s become association lists,
fallible operations (assertions, out-of-bounds indexing, `sess.bug`)
become `Except String`.
-/

/-- The four variances, `ty::Variance` in the source.  They form a lattice
with `Bivariant` on top and `Invariant` at the bottom. -/
inductive Variance where
  | Covariant
  | Contravariant
  | Invariant
  | Bivariant
deriving DecidableEq, Repr, Inhabited, Fintype

/-- The variance transform, `impl Xform for ty::Variance` in the source
("Variance transformation", Figure 1 of the Altidor et al. paper). -/
def xform : Variance → Variance → Variance
  -- Figure 1, column 1.
  | .Covariant, .Covariant => .Covariant
  | .Covariant, .Contravariant => .Contravariant
  | .Covariant, .Invariant => .Invariant
  | .Covariant, .Bivariant => .Bivariant
  -- Figure 1, column 2.
  | .Contravariant, .Covariant => .Contravariant
  | .Contravariant, .Contravariant => .Covariant
  | .Contravariant, .Invariant => .Invariant
  | .Contravariant, .Bivariant => .Bivariant
  -- Figure 1, column 3.
  | .Invariant, _ => .Invariant
  -- Figure 1, column 4.
  | .Bivariant, _ => .Bivariant

/-- Greatest lower bound of the variance lattice, `fn glb` in the source. -/
def glb : Variance → Variance → Variance
  | .Invariant, _ => .Invariant
  | _, .Invariant => .Invariant
  | .Covariant, .Contravariant => .Invariant
  | .Contravariant, .Covariant => .Invariant
  | .Covariant, .Covariant => .Covariant
  | .Contravariant, .Contravariant => .Contravariant
  | x, .Bivariant => x
  | .Bivariant, x => x

/-- The lattice order induced by `glb`: `a` is below `b` when their
greatest lower bound is `a` itself. -/
def vle (a b : Variance) : Prop := glb a b = a

instance (a b : Variance) : Decidable (vle a b) := by
  unfold vle; exact inferInstance

/-- Height of a variance in the lattice (`Invariant` at height 0,
`Bivariant` at height 2); the measure driving solver termination. -/
def height : Variance → Nat
  | .Invariant => 0
  | .Covariant => 1
  | .Contravariant => 1
  | .Bivariant => 2

/-- An inferred index is a dense integer identifier (`InferredIndex` is a
newtyped `uint` in the source; we use `Nat`). -/
abbrev InferredIndex := Nat

/-- Symbolic variance terms, `enum VarianceTerm` in the source.  Arena
pointers are replaced by plain structural subterms. -/
inductive VarianceTerm where
  | ConstantTerm (v : Variance)
  | TransformTerm (t1 t2 : VarianceTerm)
  | InferredTerm (index : InferredIndex)
deriving DecidableEq, Repr

/-- A constraint `V(inferred) <= variance`, `struct Constraint` in the
source. -/
structure Constraint where
  inferred : InferredIndex
  variance : VarianceTerm
deriving DecidableEq, Repr

/-- Term evaluation against a solution vector, `SolveContext::evaluate`.
In the source `solutions[*index]` is always in bounds by construction; the
embedding defaults to `Bivariant` (the initial value) out of bounds. -/
def evaluate (solutions : List Variance) : VarianceTerm → Variance
  | .ConstantTerm v => v
  | .TransformTerm t1 t2 => xform (evaluate solutions t1) (evaluate solutions t2)
  | .InferredTerm index => solutions.getD index .Bivariant

/-- One iteration of the body of the `for constraint in constraints` loop
inside `SolveContext::solve`: evaluate the right-hand side and lower the
cell to the glb of its old value and the evaluated variance. -/
def solve_step (solutions : List Variance) (c : Constraint) : List Variance :=
  let variance := evaluate solutions c.variance
  let old_value := solutions.getD c.inferred .Bivariant
  let new_value := glb variance old_value
  if old_value ≠ new_value then solutions.set c.inferred new_value
  else solutions

/-- One full pass of the `while changed` loop of `SolveContext::solve`:
apply every constraint once, in list order. -/
def solve_pass (constraints : List Constraint) (solutions : List Variance) :
    List Variance :=
  constraints.foldl solve_step solutions

/-- Total height of a solution vector; strictly decreases on every pass
that changes something, bounding the solver's iteration. -/
def weight (s : List Variance) : Nat := (s.map height).sum

theorem weight_nil : weight [] = 0 := rfl

theorem weight_cons (x : Variance) (s : List Variance) :
    weight (x :: s) = height x + weight s := by simp [weight]

theorem vle_glb_left : ∀ a b : Variance, vle (glb a b) a := by decide

theorem vle_glb_right : ∀ a b : Variance, vle (glb a b) b := by decide

theorem vle_refl : ∀ a : Variance, vle a a := by decide

theorem vle_trans : ∀ a b c : Variance, vle a b → vle b c → vle a c := by
  decide

theorem vle_antisymm : ∀ a b : Variance, vle a b → vle b a → a = b := by
  decide

theorem vle_bivariant : ∀ a : Variance, vle a .Bivariant := by decide

theorem vle_glb_of_le :
    ∀ x a b : Variance, vle x a → vle x b → vle x (glb a b) := by decide

theorem glb_eq_right_iff_vle :
    ∀ a b : Variance, glb a b = b ↔ vle b a := by decide

theorem height_le_of_vle :
    ∀ a b : Variance, vle a b → height a ≤ height b := by decide

theorem height_lt_of_vle_ne :
    ∀ a b : Variance, vle a b → a ≠ b → height a < height b := by decide

theorem height_le_two : ∀ a : Variance, height a ≤ 2 := by decide

theorem getD_nil (i : Nat) (d : Variance) :
    ([] : List Variance).getD i d = d := by cases i <;> rfl

theorem getD_set_self (s : List Variance) (i : Nat) (h : i < s.length)
    (v d : Variance) : (s.set i v).getD i d = v := by
  induction s generalizing i with
  | nil => simp at h
  | cons a t ih =>
    cases i with
    | zero => simp [List.set]
    | succ j =>
      simp only [List.set, List.getD_cons_succ]
      exact ih j (by simpa using h)

theorem getD_set_ne (s : List Variance) (i j : Nat) (h : i ≠ j)
    (v d : Variance) : (s.set i v).getD j d = s.getD j d := by
  induction s generalizing i j with
  | nil => simp [List.set]
  | cons a t ih =>
    cases i with
    | zero =>
      cases j with
      | zero => exact absurd rfl h
      | succ k => simp [List.set]
    | succ i' =>
      cases j with
      | zero => simp [List.set]
      | succ k =>
        simp only [List.set, List.getD_cons_succ]
        exact ih i' k (fun hc => h (by omega))

theorem set_of_length_le (s : List Variance) (i : Nat)
    (h : s.length ≤ i) (v : Variance) : s.set i v = s := by
  induction s generalizing i with
  | nil => simp
  | cons a t ih =>
    cases i with
    | zero => simp at h
    | succ j => simp only [List.set]; rw [ih j (by simpa using h)]

theorem getD_of_length_le (s : List Variance) (i : Nat)
    (h : s.length ≤ i) (d : Variance) : s.getD i d = d := by
  simp [List.getD, List.getElem?_eq_none h]

/-- Pointwise lattice order on solution vectors (same length, every cell
below the corresponding cell). -/
def ptwise_le (t s : List Variance) : Prop :=
  t.length = s.length ∧
    ∀ i : Nat, vle (t.getD i .Bivariant) (s.getD i .Bivariant)

theorem ptwise_le_refl (s : List Variance) : ptwise_le s s :=
  ⟨rfl, fun _ => vle_refl _⟩

theorem ptwise_le_trans {a b c : List Variance}
    (h1 : ptwise_le a b) (h2 : ptwise_le b c) : ptwise_le a c :=
  ⟨h1.1.trans h2.1, fun i => vle_trans _ _ _ (h1.2 i) (h2.2 i)⟩

theorem ptwise_le_cons_iff {x y : Variance} {xs ys : List Variance} :
    ptwise_le (x :: xs) (y :: ys) ↔ vle x y ∧ ptwise_le xs ys := by
  constructor
  · rintro ⟨hlen, hfun⟩
    refine ⟨by have := hfun 0; simpa using this, by simpa using hlen,
      fun i => ?_⟩
    have := hfun (i + 1)
    simpa using this
  · rintro ⟨hxy, hlen, hfun⟩
    refine ⟨by simpa using hlen, fun i => ?_⟩
    cases i with
    | zero => simpa using hxy
    | succ j => simpa using hfun j

theorem ptwise_le_antisymm {a b : List Variance}
    (h1 : ptwise_le a b) (h2 : ptwise_le b a) : a = b := by
  induction a generalizing b with
  | nil =>
    have := h1.1
    cases b with
    | nil => rfl
    | cons y ys => simp at this
  | cons x xs ih =>
    cases b with
    | nil => have := h1.1; simp at this
    | cons y ys =>
      rw [ptwise_le_cons_iff] at h1 h2
      rw [vle_antisymm _ _ h1.1 h2.1, ih h1.2 h2.2]

theorem weight_le_of_ptwise_le {t s : List Variance}
    (h : ptwise_le t s) : weight t ≤ weight s := by
  induction t generalizing s with
  | nil =>
    have := h.1
    cases s with
    | nil => exact le_refl _
    | cons y ys => simp at this
  | cons x xs ih =>
    cases s with
    | nil => have := h.1; simp at this
    | cons y ys =>
      rw [ptwise_le_cons_iff] at h
      have h1 := height_le_of_vle _ _ h.1
      have h2 := ih h.2
      rw [weight_cons, weight_cons]
      omega

theorem weight_lt_of_ptwise_le_ne {t s : List Variance}
    (h : ptwise_le t s) (hne : t ≠ s) : weight t < weight s := by
  induction t generalizing s with
  | nil =>
    have := h.1
    cases s with
    | nil => exact absurd rfl hne
    | cons y ys => simp at this
  | cons x xs ih =>
    cases s with
    | nil => have := h.1; simp at this
    | cons y ys =>
      rw [ptwise_le_cons_iff] at h
      rw [weight_cons, weight_cons]
      by_cases hxy : x = y
      · have htail : xs ≠ ys := fun hc => hne (by rw [hxy, hc])
        have h1 := ih h.2 htail
        have h2 := height_le_of_vle _ _ h.1
        omega
      · have h1 := height_lt_of_vle_ne _ _ h.1 hxy
        have h2 := weight_le_of_ptwise_le h.2
        omega

theorem solve_step_ptwise_le (s : List Variance) (c : Constraint) :
    ptwise_le (solve_step s c) s := by
  simp only [solve_step]
  split
  · by_cases hb : c.inferred < s.length
    · refine ⟨by simp, fun i => ?_⟩
      by_cases hi : c.inferred = i
      · subst hi
        rw [getD_set_self s c.inferred hb]
        exact vle_glb_right _ _
      · rw [getD_set_ne s c.inferred i hi]
        exact vle_refl _
    · have hle : s.length ≤ c.inferred := Nat.le_of_not_lt hb
      rw [set_of_length_le s c.inferred hle]
      exact ptwise_le_refl s
  · exact ptwise_le_refl s

theorem solve_step_length (s : List Variance) (c : Constraint) :
    (solve_step s c).length = s.length :=
  (solve_step_ptwise_le s c).1

theorem solve_pass_ptwise_le (cs : List Constraint) (s : List Variance) :
    ptwise_le (solve_pass cs s) s := by
  induction cs generalizing s with
  | nil => exact ptwise_le_refl s
  | cons c cs ih =>
    exact ptwise_le_trans (ih (solve_step s c)) (solve_step_ptwise_le s c)

theorem solve_pass_length (cs : List Constraint) (s : List Variance) :
    (solve_pass cs s).length = s.length :=
  (solve_pass_ptwise_le cs s).1

theorem solve_pass_weight_lt {cs : List Constraint} {s : List Variance}
    (h : solve_pass cs s ≠ s) : weight (solve_pass cs s) < weight s :=
  weight_lt_of_ptwise_le_ne (solve_pass_ptwise_le cs s) h

/-- The fixed-point loop of `SolveContext::solve`: repeat full passes
until nothing changes.  Since a changing pass strictly decreases the
total height, the loop terminates.  (In the source the loop is driven by
a `changed` flag; a pass sets the flag iff it changed some cell, which —
because every update strictly lowers its cell — happens iff the pass
changed the vector.) -/
def solve (constraints : List Constraint) (solutions : List Variance) :
    List Variance :=
  let next := solve_pass constraints solutions
  if h : next = solutions then solutions
  else solve constraints next
termination_by weight solutions
decreasing_by exact solve_pass_weight_lt h

/-- `vec::from_elem(num_inferred, ty::Bivariant)` in `solve_constraints`:
the initial all-Bivariant solution vector. -/
def init_solutions (n : Nat) : List Variance := List.replicate n .Bivariant

/-- A solution vector satisfies a constraint `(i, term)` when the value of
cell `i` is a lower bound of the evaluated term (spec: `V(i) <= evaluate(term)`). -/
def satisfies_constraint (s : List Variance) (c : Constraint) : Prop :=
  vle (s.getD c.inferred .Bivariant) (evaluate s c.variance)

theorem solve_eq_self {cs : List Constraint} {s : List Variance}
    (h : solve_pass cs s = s) : solve cs s = s := by
  rw [solve]
  simp [h]

theorem solve_eq_next {cs : List Constraint} {s : List Variance}
    (h : solve_pass cs s ≠ s) :
    solve cs s = solve cs (solve_pass cs s) := by
  conv_lhs => rw [solve]
  simp [h]

theorem solve_pass_fix_reached (cs : List Constraint) :
    ∀ k s, weight s ≤ k →
      solve_pass cs ((solve_pass cs)^[k] s) = (solve_pass cs)^[k] s := by
  intro k
  induction k using Nat.strong_induction_on with
  | _ k ih =>
    intro s hw
    by_cases h : solve_pass cs s = s
    · rw [Function.iterate_fixed h]
      exact h
    · have hlt := solve_pass_weight_lt h
      cases k with
      | zero => omega
      | succ m =>
        rw [Function.iterate_succ_apply]
        exact ih m (by omega) (solve_pass cs s) (by omega)

theorem iterate_ge_fixed (cs : List Constraint) (t : List Variance)
    (m : Nat) (h : weight t ≤ m) :
    (solve_pass cs)^[m] t = (solve_pass cs)^[weight t] t := by
  obtain ⟨d, rfl⟩ : ∃ d, m = d + weight t := ⟨m - weight t, by omega⟩
  rw [Function.iterate_add_apply]
  exact Function.iterate_fixed
    (solve_pass_fix_reached cs (weight t) t le_rfl) d

theorem solve_eq_iterate (cs : List Constraint) (s : List Variance) :
    solve cs s = (solve_pass cs)^[weight s] s := by
  by_cases h : solve_pass cs s = s
  · rw [solve_eq_self h, Function.iterate_fixed h]
  · have hlt := solve_pass_weight_lt h
    rw [solve_eq_next h, solve_eq_iterate cs (solve_pass cs s)]
    have hw : 1 ≤ weight s := by omega
    obtain ⟨w, hww⟩ : ∃ w, weight s = w + 1 := ⟨weight s - 1, by omega⟩
    rw [hww, Function.iterate_succ_apply,
      iterate_ge_fixed cs (solve_pass cs s) w (by omega)]
termination_by weight s
decreasing_by exact solve_pass_weight_lt h

theorem solve_is_fixed (cs : List Constraint) (s : List Variance) :
    solve_pass cs (solve cs s) = solve cs s := by
  rw [solve_eq_iterate]
  exact solve_pass_fix_reached cs (weight s) s le_rfl

theorem iterate_pass_length (cs : List Constraint) (s : List Variance)
    (k : Nat) : ((solve_pass cs)^[k] s).length = s.length := by
  induction k with
  | zero => rfl
  | succ m ih =>
    rw [Function.iterate_succ_apply']
    rw [solve_pass_length, ih]

theorem solve_length (cs : List Constraint) (s : List Variance) :
    (solve cs s).length = s.length := by
  rw [solve_eq_iterate]; exact iterate_pass_length cs s _

theorem weight_init (n : Nat) : weight (init_solutions n) = 2 * n := by
  induction n with
  | zero => rfl
  | succ m ih =>
    simp only [init_solutions, List.replicate_succ, weight_cons] at *
    rw [ih]
    simp [height]
    omega

theorem length_init (n : Nat) : (init_solutions n).length = n := by
  simp [init_solutions]

theorem getD_init (n i : Nat) :
    (init_solutions n).getD i .Bivariant = .Bivariant := by
  induction n generalizing i with
  | zero => simp [init_solutions, getD_nil]
  | succ m ih =>
    simp only [init_solutions, List.replicate_succ]
    cases i with
    | zero => rfl
    | succ j => simpa [init_solutions] using ih j

/- A fixed point of a full pass is a fixed point of every single step,
because each step can only move downwards. -/
theorem solve_step_eq_of_pass_eq {cs : List Constraint} {s : List Variance}
    (h : solve_pass cs s = s) : ∀ c ∈ cs, solve_step s c = s := by
  induction cs generalizing s with
  | nil => intro c hc; simp at hc
  | cons c0 rest ih =>
    intro c hc
    have h' : solve_pass rest (solve_step s c0) = s := h
    have hstep := solve_step_ptwise_le s c0
    have hpass := solve_pass_ptwise_le rest (solve_step s c0)
    have hs_le : ptwise_le s (solve_step s c0) := by
      nth_rewrite 1 [← h']; exact hpass
    have heq : solve_step s c0 = s := ptwise_le_antisymm hstep hs_le
    rcases List.mem_cons.mp hc with rfl | hmem
    · exact heq
    · exact ih (by rw [heq] at h'; exact h') c hmem

theorem set_getD_self (s : List Variance) (i : Nat) (h : i < s.length)
    (d : Variance) : s.set i (s.getD i d) = s := by
  induction s generalizing i with
  | nil => simp
  | cons a t ih =>
    cases i with
    | zero => simp [List.set]
    | succ j =>
      simp only [List.set, List.getD_cons_succ]
      rw [ih j (by simpa using h)]

theorem solve_step_eq_set (s : List Variance) (c : Constraint)
    (hb : c.inferred < s.length) :
    solve_step s c =
      s.set c.inferred
        (glb (evaluate s c.variance) (s.getD c.inferred .Bivariant)) := by
  simp only [solve_step]
  split
  · rfl
  next hch =>
    rw [not_ne_iff] at hch
    rw [← hch, set_getD_self s c.inferred hb]

theorem satisfies_of_solve_step_eq {s : List Variance} {c : Constraint}
    (hb : c.inferred < s.length) (h : solve_step s c = s) :
    satisfies_constraint s c := by
  rw [solve_step_eq_set s c hb] at h
  have h2 := congrArg (fun l => List.getD l c.inferred .Bivariant) h
  simp only at h2
  rw [getD_set_self s c.inferred hb] at h2
  exact (glb_eq_right_iff_vle (evaluate s c.variance)
    (s.getD c.inferred .Bivariant)).mp h2

/-- At the solver's fixed point every in-bounds constraint is satisfied. -/
theorem solve_satisfies (cs : List Constraint) (s : List Variance)
    (c : Constraint) (hc : c ∈ cs) (hb : c.inferred < s.length) :
    satisfies_constraint (solve cs s) c := by
  have hfix := solve_is_fixed cs s
  have hstep := solve_step_eq_of_pass_eq hfix c hc
  exact satisfies_of_solve_step_eq (by rw [solve_length]; exact hb) hstep

theorem xform_mono :
    ∀ a a' b b' : Variance, vle a a' → vle b b' →
      vle (xform a b) (xform a' b') := by decide

/-- Term evaluation is monotone in the solution vector. -/
theorem evaluate_mono {t s : List Variance} (h : ptwise_le t s) :
    ∀ term : VarianceTerm, vle (evaluate t term) (evaluate s term) := by
  intro term
  induction term with
  | ConstantTerm v => exact vle_refl v
  | TransformTerm t1 t2 ih1 ih2 => exact xform_mono _ _ _ _ ih1 ih2
  | InferredTerm i => exact h.2 i

theorem solve_step_greatest {t u : List Variance} {c : Constraint}
    (hle : ptwise_le t u) (hsat : satisfies_constraint t c) :
    ptwise_le t (solve_step u c) := by
  simp only [solve_step]
  split
  · by_cases hb : c.inferred < u.length
    · refine ⟨by rw [hle.1]; simp, fun i => ?_⟩
      by_cases hi : c.inferred = i
      · subst hi
        rw [getD_set_self u c.inferred hb]
        apply vle_glb_of_le
        · exact vle_trans _ _ _ hsat (evaluate_mono hle c.variance)
        · exact hle.2 c.inferred
      · rw [getD_set_ne u c.inferred i hi]
        exact hle.2 i
    · rw [set_of_length_le u c.inferred (Nat.le_of_not_lt hb)]
      exact hle
  · exact hle

theorem solve_pass_greatest {cs : List Constraint} {t u : List Variance}
    (hle : ptwise_le t u) (hsat : ∀ c ∈ cs, satisfies_constraint t c) :
    ptwise_le t (solve_pass cs u) := by
  induction cs generalizing u with
  | nil => exact hle
  | cons c rest ih =>
    exact ih (solve_step_greatest hle (hsat c (List.mem_cons_self c rest)))
      (fun c' hc' => hsat c' (List.mem_cons_of_mem c hc'))

theorem iterate_greatest {cs : List Constraint} {t : List Variance}
    {n : Nat} (hlen : t.length = n)
    (hsat : ∀ c ∈ cs, satisfies_constraint t c) (k : Nat) :
    ptwise_le t ((solve_pass cs)^[k] (init_solutions n)) := by
  induction k with
  | zero =>
    refine ⟨by simp [hlen, init_solutions], fun i => ?_⟩
    rw [Function.iterate_zero_apply, getD_init]
    exact vle_bivariant _
  | succ m ih =>
    rw [Function.iterate_succ_apply']
    exact solve_pass_greatest ih hsat

/-- Any assignment satisfying every constraint lies pointwise below the
solver's result: the computed solution is the greatest solution. -/
theorem solve_greatest {cs : List Constraint} {t : List Variance}
    {n : Nat} (hlen : t.length = n)
    (hsat : ∀ c ∈ cs, satisfies_constraint t c) :
    ptwise_le t (solve cs (init_solutions n)) := by
  rw [solve_eq_iterate]
  exact iterate_greatest hlen hsat _

/-!  AST model and the indexer (first pass). -/

/-- `ast::NodeId`. -/
abbrev NodeId := Nat

/-- `ast::DefId`.  `crate = 0` is `ast::LOCAL_CRATE`, the current
compilation unit. -/
structure DefId where
  crate : Nat
  node : NodeId
deriving DecidableEq, Repr

def LOCAL_CRATE : Nat := 0

/-- `enum ParamKind` in the source. -/
inductive ParamKind where
  | TypeParam
  | RegionParam
  | SelfParam
deriving DecidableEq, Repr

/-- `struct InferredInfo` in the source: one record per inferred index. -/
structure InferredInfo where
  item_id : NodeId
  kind : ParamKind
  index : Nat
  param_id : NodeId
  term : VarianceTerm
deriving DecidableEq, Repr

/-- `ty::ItemVariances`: the published per-item variance record. -/
structure ItemVariances where
  self_param : Option Variance
  type_params : List Variance
  region_params : List Variance
deriving DecidableEq, Repr

/-- The `ItemVariances { self_param: None, type_params: opt_vec::Empty,
region_params: opt_vec::Empty }` literal used by the source. -/
def empty_item_variances : ItemVariances :=
  { self_param := none, type_params := [], region_params := [] }

/-- `ast::Generics`: the declared lifetime and type parameters of an
item, each carrying its node id. -/
structure Generics where
  lifetimes : List NodeId
  ty_params : List NodeId
deriving DecidableEq, Repr

/-- `ty::Region`.  Only the constructors that `add_constraints_from_region`
distinguishes are modelled; payloads the source matches with `(*)` are
dropped, the early-bound parameter id is kept. -/
inductive Region where
  | ReEarlyBound (param_id : NodeId)
  | ReStatic
  | ReLateBound
  | ReFree
  | ReScope
  | ReInfer
  | ReEmpty
deriving DecidableEq, Repr

/-- `ast::Mutability`. -/
inductive Mutability where
  | MutMutable
  | MutImmutable
deriving DecidableEq, Repr

/-- `ty::vstore`: the storage class of vectors and strings. -/
inductive Vstore where
  | vstore_fixed
  | vstore_uniq
  | vstore_box
  | vstore_slice (r : Region)
deriving DecidableEq, Repr

/-- `ty::RegionSubsts`: the region arguments of a substitution. -/
inductive RegionSubsts where
  | ErasedRegions
  | NonerasedRegions (rps : List Region)
deriving DecidableEq, Repr

/-- The structural type shapes of `ty::sty` matched by
`add_constraints_from_ty`.  An `mt` is flattened into a type and a
mutability, a `FnSig` into its input list and output, and the bug-branch
constructors keep no payloads except where present in patterns. -/
inductive Ty where
  | ty_nil
  | ty_bot
  | ty_bool
  | ty_char
  | ty_int
  | ty_uint
  | ty_float
  | ty_estr (v : Vstore)
  | ty_evec (ty : Ty) (mutbl : Mutability) (v : Vstore)
  | ty_box (ty : Ty) (mutbl : Mutability)
  | ty_uniq (ty : Ty) (mutbl : Mutability)
  | ty_ptr (ty : Ty) (mutbl : Mutability)
  | ty_rptr (region : Region) (ty : Ty) (mutbl : Mutability)
  | ty_tup (subtys : List Ty)
  | ty_enum (def_id : DefId) (tps : List Ty) (regions : RegionSubsts)
  | ty_struct (def_id : DefId) (tps : List Ty) (regions : RegionSubsts)
  | ty_trait (def_id : DefId) (tps : List Ty) (regions : RegionSubsts)
  | ty_param (def_id : DefId)
  | ty_self (def_id : DefId)
  | ty_bare_fn (inputs : List Ty) (output : Ty)
  | ty_closure (region : Region) (inputs : List Ty) (output : Ty)
  | ty_infer
  | ty_err
  | ty_type
  | ty_opaq_box
  | ty_opaq_closure_ptr
  | ty_unboxed_vec (ty : Ty) (mutbl : Mutability)

/-- `ty::FnSig`. -/
structure FnSig where
  inputs : List Ty
  output : Ty

/-- A trait method as consulted by the constraint generator
(`ty::trait_methods`): its transformed self type, if any, and the
signature `method.fty.sig`. -/
structure Method where
  transformed_self_ty : Option Ty
  sig : FnSig

/-- The item kinds of `ast::item_`.  For the three variance-bearing kinds
the payload records what the type-context oracle returns for the item:
the argument types of each enum variant
(`ty::VariantInfo::from_ast_variant`), the struct field types
(`ty::lookup_struct_fields` plus `ty::node_id_to_type`) and the trait
methods (`ty::trait_methods`). -/
inductive ItemNode where
  | item_enum (generics : Generics) (variants : List (List Ty))
  | item_struct (generics : Generics) (fields : List Ty)
  | item_trait (generics : Generics) (methods : List Method)
  | item_impl
  | item_static
  | item_fn
  | item_mod
  | item_foreign_mod
  | item_ty
  | item_mac

/-- An `ast::item`. -/
structure Item where
  id : NodeId
  node : ItemNode

/-- `struct TermsContext` in the source: the inferred map, the inferred
records, and (standing in for the `tcx` field it carries) the local
`item_variance_map` the pass writes into.  The `HashMap`s become
association lists. -/
structure TermsContext where
  inferred_map : List (NodeId × InferredIndex)
  inferred_infos : List InferredInfo
  item_variance_map : List (NodeId × ItemVariances)
deriving DecidableEq, Repr

def TermsContext.num_inferred (cx : TermsContext) : Nat :=
  cx.inferred_infos.length

/-- `TermsContext::add_inferred`: allocate the next inferred index, record
its info and leaf term, and insert the parameter id into the inferred
map; `assert!(newly_added)` fails on a duplicate parameter id. -/
def TermsContext.add_inferred (cx : TermsContext) (item_id : NodeId)
    (kind : ParamKind) (index : Nat) (param_id : NodeId) :
    Except String TermsContext :=
  let inf_index := cx.inferred_infos.length
  let term := VarianceTerm.InferredTerm inf_index
  if (cx.inferred_map.lookup param_id).isSome then
    .error "assertion failed: newly_added"
  else
    .ok { cx with
      inferred_infos := cx.inferred_infos ++
        [{ item_id := item_id, kind := kind, index := index,
           param_id := param_id, term := term }],
      inferred_map := (param_id, inf_index) :: cx.inferred_map }

/-- `TermsContext`'s `visit_item`: allocate the `Self` inferred for a
trait, then the region and type parameter inferreds in declaration
order; install an empty variance-map entry when the item declared no
inferreds at all. -/
def terms_visit_item (cx : TermsContext) (item : Item) :
    Except String TermsContext := do
  let inferreds_on_entry := cx.num_inferred
  let cx ← match item.node with
    | .item_trait _ _ => cx.add_inferred item.id .SelfParam 0 item.id
    | _ => pure cx
  match item.node with
  | .item_enum generics _ | .item_struct generics _
  | .item_trait generics _ => do
    let cx ← generics.lifetimes.enum.foldlM
      (fun cx ip => cx.add_inferred item.id .RegionParam ip.1 ip.2) cx
    let cx ← generics.ty_params.enum.foldlM
      (fun cx ip => cx.add_inferred item.id .TypeParam ip.1 ip.2) cx
    if cx.num_inferred == inferreds_on_entry then
      if (cx.item_variance_map.lookup item.id).isSome then
        .error "assertion failed: newly_added"
      else
        .ok { cx with item_variance_map :=
          (item.id, empty_item_variances) :: cx.item_variance_map }
    else
      .ok cx
  | _ => .ok cx

/-- `determine_parameters_to_be_inferred`: the first walk over the crate.
The crate is modelled as the list of its items in walk order. -/
def determine_parameters_to_be_inferred (crate : List Item) :
    Except String TermsContext :=
  crate.foldlM terms_visit_item
    { inferred_map := [], inferred_infos := [], item_variance_map := [] }


/-!  The constraint generator (second pass). -/

/-- The four pre-allocated constant terms of `ConstraintContext`
(`self.covariant`, `self.contravariant`, `self.invariant`,
`self.bivariant`); in the embedding arena pointers are plain values. -/
def covariant_term : VarianceTerm := .ConstantTerm .Covariant

def contravariant_term : VarianceTerm := .ConstantTerm .Contravariant

def invariant_term : VarianceTerm := .ConstantTerm .Invariant

def bivariant_term : VarianceTerm := .ConstantTerm .Bivariant

/-- `ConstraintContext::constant_term`: select the pre-allocated constant
term for a variance. -/
def constant_term : Variance → VarianceTerm
  | .Covariant => covariant_term
  | .Invariant => invariant_term
  | .Contravariant => contravariant_term
  | .Bivariant => bivariant_term

/-- `ConstraintContext::xform`: the smart transform-term constructor.
Transforming by a covariant constant is a no-op, two constants fold into
the constant of their `xform`, anything else allocates a
`TransformTerm`. -/
def cc_xform : VarianceTerm → VarianceTerm → VarianceTerm
  | v1, .ConstantTerm .Covariant =>
    -- Applying a "covariant" transform is always a no-op
    v1
  | .ConstantTerm c1, .ConstantTerm c2 => constant_term (xform c1 c2)
  | v1, v2 => .TransformTerm v1 v2

/-- `ConstraintContext::contravariant`: `xform(variance, self.contravariant)`. -/
def contravariant_xform (variance : VarianceTerm) : VarianceTerm :=
  cc_xform variance contravariant_term

/-- `ConstraintContext::invariant`: `xform(variance, self.invariant)`. -/
def invariant_xform (variance : VarianceTerm) : VarianceTerm :=
  cc_xform variance invariant_term

/-- The declared generics of an item as the oracle returns them:
`ty::lookup_item_type(..).generics` or `ty::lookup_trait_def(..).generics`.
Each parameter def carries its `def_id`. -/
structure ItemGenerics where
  type_param_defs : List DefId
  region_param_defs : List DefId

/-- `struct ConstraintContext`, minus the mutable constraint list, which
the traversal functions thread explicitly (it is the only state the
source mutates).  The three function fields model the `tcx` oracles the
generator consults. -/
structure ConstraintContext where
  terms_cx : TermsContext
  item_generics : DefId → ItemGenerics
  trait_generics : DefId → ItemGenerics
  external_variances : DefId → ItemVariances

/-- `ConstraintContext::inferred_index`: look a parameter id up in the
inferred map; a missing entry is a fatal bug (`sess.bug`). -/
def ConstraintContext.inferred_index (cx : ConstraintContext)
    (param_id : NodeId) : Except String InferredIndex :=
  match cx.terms_cx.inferred_map.lookup param_id with
  | some index => .ok index
  | none => .error "No inferred index entry"

/-- `ConstraintContext::declared_variance`: the declared variance of a
parameter of an item appearing in a type.  For a local item this is the
symbolic leaf term of its inferred; for an external item the already
solved variance is fetched from the external map and wrapped as a
constant. -/
def ConstraintContext.declared_variance (cx : ConstraintContext)
    (param_def_id : DefId) (item_def_id : DefId) (kind : ParamKind)
    (index : Nat) : Except String VarianceTerm :=
  -- assert_eq!(param_def_id.crate, item_def_id.crate)
  if param_def_id.crate ≠ item_def_id.crate then
    .error "assertion failed: param_def_id.crate == item_def_id.crate"
  else if param_def_id.crate = LOCAL_CRATE then do
    let index ← cx.inferred_index param_def_id.node
    match cx.terms_cx.inferred_infos.get? index with
    | some info => .ok info.term
    | none => .error "inferred_infos index out of bounds"
  else do
    let variances := cx.external_variances item_def_id
    let variance ← match kind with
      | .SelfParam =>
        match variances.self_param with
        | some v => Except.ok v
        | none => Except.error "self_param.unwrap() failed"
      | .TypeParam =>
        match variances.type_params.get? index with
        | some v => Except.ok v
        | none => Except.error "type_params.get out of bounds"
      | .RegionParam =>
        match variances.region_params.get? index with
        | some v => Except.ok v
        | none => Except.error "region_params.get out of bounds"
    .ok (constant_term variance)

/-- `ConstraintContext::add_constraint`: push a constraint. -/
def add_constraint (constraints : List Constraint)
    (index : InferredIndex) (variance : VarianceTerm) : List Constraint :=
  constraints ++ [{ inferred := index, variance := variance }]

/-- `ConstraintContext::add_constraints_from_region`: an early-bound
region constrains its inferred, `'static` and late-bound regions add
nothing, every other region kind is a fatal bug (`sess.bug`). -/
def ConstraintContext.add_constraints_from_region (cx : ConstraintContext)
    (constraints : List Constraint) (region : Region)
    (variance : VarianceTerm) : Except String (List Constraint) :=
  match region with
  | .ReEarlyBound param_id => do
    let index ← cx.inferred_index param_id
    .ok (add_constraint constraints index variance)
  | .ReStatic => .ok constraints
  | .ReLateBound =>
    -- region parameters on methods or in fn types are not inferred
    .ok constraints
  | .ReFree | .ReScope | .ReInfer | .ReEmpty =>
    .error "Unexpected region encountered in variance inference"

/-- `ConstraintContext::add_constraints_from_vstore`: only a borrowed
slice carries a region. -/
def ConstraintContext.add_constraints_from_vstore (cx : ConstraintContext)
    (constraints : List Constraint) (vstore : Vstore)
    (variance : VarianceTerm) : Except String (List Constraint) :=
  match vstore with
  | .vstore_slice r =>
    let contra := contravariant_xform variance
    cx.add_constraints_from_region constraints r contra
  | .vstore_fixed | .vstore_uniq | .vstore_box => .ok constraints

/-- The `substs.regions` loop of `add_constraints_from_substs`: iterate
the declared region parameter defs against the region arguments
(indexing past the end of the argument list is a panic). -/
def ConstraintContext.add_region_constraints_from_substs
    (cx : ConstraintContext) (constraints : List Constraint)
    (def_id : DefId) (region_param_defs : List DefId) (i : Nat)
    (rps : List Region) (variance : VarianceTerm) :
    Except String (List Constraint) :=
  match region_param_defs, rps with
  | [], _ => .ok constraints
  | _ :: _, [] => .error "substs.regions index out of bounds"
  | p :: rest, r :: rrest => do
    let variance_decl ← cx.declared_variance p def_id .RegionParam i
    let variance_i := cc_xform variance variance_decl
    let constraints ← cx.add_constraints_from_region constraints r variance_i
    cx.add_region_constraints_from_substs constraints def_id rest (i + 1)
      rrest variance

theorem mutbl_sizeOf_pos (m : Mutability) : 0 < sizeOf m := by
  cases m <;> simp

theorem defid_sizeOf_pos (d : DefId) : 0 < sizeOf d := by
  cases d <;> simp <;> omega

theorem ty_sizeOf_pos (t : Ty) : 0 < sizeOf t := by
  cases t <;> simp <;> omega

theorem list_ty_sizeOf_pos (l : List Ty) : 0 < sizeOf l := by
  cases l <;> simp <;> omega

mutual

/-- `ConstraintContext::add_constraints_from_ty`: structural traversal of
a type at an ambient variance term. -/
def ConstraintContext.add_constraints_from_ty (cx : ConstraintContext)
    (constraints : List Constraint) (ty : Ty) (variance : VarianceTerm) :
    Except String (List Constraint) :=
  match ty with
  | .ty_nil | .ty_bot | .ty_bool | .ty_char | .ty_int | .ty_uint
  | .ty_float =>
    -- leaf type, no-op
    .ok constraints
  | .ty_rptr region mt_ty mt_mutbl => do
    let contra := contravariant_xform variance
    let constraints ← cx.add_constraints_from_region constraints region contra
    cx.add_constraints_from_mt constraints mt_ty mt_mutbl variance
  | .ty_estr vstore =>
    cx.add_constraints_from_vstore constraints vstore variance
  | .ty_evec mt_ty mt_mutbl vstore => do
    let constraints ← cx.add_constraints_from_vstore constraints vstore variance
    cx.add_constraints_from_mt constraints mt_ty mt_mutbl variance
  | .ty_box mt_ty mt_mutbl | .ty_uniq mt_ty mt_mutbl
  | .ty_ptr mt_ty mt_mutbl =>
    cx.add_constraints_from_mt constraints mt_ty mt_mutbl variance
  | .ty_tup subtys =>
    cx.add_constraints_from_ty_list constraints subtys variance
  | .ty_enum def_id tps regions | .ty_struct def_id tps regions =>
    cx.add_constraints_from_substs constraints def_id
      (cx.item_generics def_id) tps regions variance
  | .ty_trait def_id tps regions =>
    cx.add_constraints_from_substs constraints def_id
      (cx.trait_generics def_id) tps regions variance
  | .ty_param def_id =>
    -- assert_eq!(def_id.crate, ast::LOCAL_CRATE)
    if def_id.crate ≠ LOCAL_CRATE then
      .error "assertion failed: def_id.crate == LOCAL_CRATE"
    else
      match cx.terms_cx.inferred_map.lookup def_id.node with
      | some index => .ok (add_constraint constraints index variance)
      | none =>
        -- type parameters declared on methods are not inferred
        .ok constraints
  | .ty_self def_id =>
    if def_id.crate ≠ LOCAL_CRATE then
      .error "assertion failed: def_id.crate == LOCAL_CRATE"
    else do
      let index ← cx.inferred_index def_id.node
      .ok (add_constraint constraints index variance)
  | .ty_bare_fn inputs output =>
    cx.add_constraints_from_sig constraints inputs output variance
  | .ty_closure region inputs output => do
    let contra := contravariant_xform variance
    let constraints ← cx.add_constraints_from_region constraints region contra
    cx.add_constraints_from_sig constraints inputs output variance
  | .ty_infer | .ty_err | .ty_type | .ty_opaq_box
  | .ty_opaq_closure_ptr | .ty_unboxed_vec _ _ =>
    .error "Unexpected type encountered in variance inference"
termination_by sizeOf ty
decreasing_by
  all_goals simp_wf
  all_goals
    (try have h1 := mutbl_sizeOf_pos mt_mutbl) <;>
    (try have h2 := defid_sizeOf_pos def_id) <;>
    (try have h3 := ty_sizeOf_pos output) <;>
    (try have h4 := list_ty_sizeOf_pos inputs) <;>
    omega

/-- The `for &subty in subtys` loop of the tuple case (also used for the
input types of a signature, which share one ambient term). -/
def ConstraintContext.add_constraints_from_ty_list (cx : ConstraintContext)
    (constraints : List Constraint) (tys : List Ty)
    (variance : VarianceTerm) : Except String (List Constraint) :=
  match tys with
  | [] => .ok constraints
  | t :: rest => do
    let constraints ← cx.add_constraints_from_ty constraints t variance
    cx.add_constraints_from_ty_list constraints rest variance
termination_by sizeOf tys
decreasing_by
  all_goals simp_wf
  all_goals
    (try have h1 := mutbl_sizeOf_pos mt_mutbl) <;>
    (try have h2 := defid_sizeOf_pos def_id) <;>
    (try have h3 := ty_sizeOf_pos output) <;>
    (try have h4 := list_ty_sizeOf_pos inputs) <;>
    omega

/-- `ConstraintContext::add_constraints_from_substs`: type arguments are
traversed under the transform of the ambient variance by the declared
variance of the corresponding parameter; region arguments analogously
unless regions are erased. -/
def ConstraintContext.add_constraints_from_substs (cx : ConstraintContext)
    (constraints : List Constraint) (def_id : DefId)
    (generics : ItemGenerics) (tps : List Ty) (regions : RegionSubsts)
    (variance : VarianceTerm) : Except String (List Constraint) := do
  let constraints ← cx.add_tp_constraints_from_substs constraints def_id
    generics.type_param_defs 0 tps variance
  match regions with
  | .ErasedRegions => .ok constraints
  | .NonerasedRegions rps =>
    cx.add_region_constraints_from_substs constraints def_id
      generics.region_param_defs 0 rps variance
termination_by sizeOf tps + 1
decreasing_by
  all_goals simp_wf
  all_goals
    (try have h1 := mutbl_sizeOf_pos mt_mutbl) <;>
    (try have h2 := defid_sizeOf_pos def_id) <;>
    (try have h3 := ty_sizeOf_pos output) <;>
    (try have h4 := list_ty_sizeOf_pos inputs) <;>
    omega

/-- The `generics.type_param_defs` loop of `add_constraints_from_substs`:
iterate the declared type parameter defs against `substs.tps` (indexing
past the end of the argument list is a panic). -/
def ConstraintContext.add_tp_constraints_from_substs
    (cx : ConstraintContext) (constraints : List Constraint)
    (def_id : DefId) (type_param_defs : List DefId) (i : Nat)
    (tps : List Ty) (variance : VarianceTerm) :
    Except String (List Constraint) :=
  match type_param_defs, tps with
  | [], _ => .ok constraints
  | _ :: _, [] => .error "substs.tps index out of bounds"
  | p :: rest, tp :: tprest => do
    let variance_decl ← cx.declared_variance p def_id .TypeParam i
    let variance_i := cc_xform variance variance_decl
    let constraints ← cx.add_constraints_from_ty constraints tp variance_i
    cx.add_tp_constraints_from_substs constraints def_id rest (i + 1)
      tprest variance
termination_by sizeOf tps
decreasing_by
  all_goals simp_wf
  all_goals
    (try have h1 := mutbl_sizeOf_pos mt_mutbl) <;>
    (try have h2 := defid_sizeOf_pos def_id) <;>
    (try have h3 := ty_sizeOf_pos output) <;>
    (try have h4 := list_ty_sizeOf_pos inputs) <;>
    omega

/-- `ConstraintContext::add_constraints_from_sig`: inputs at the
contravariant transform of the ambient variance, the output at the
ambient variance. -/
def ConstraintContext.add_constraints_from_sig (cx : ConstraintContext)
    (constraints : List Constraint) (inputs : List Ty) (output : Ty)
    (variance : VarianceTerm) : Except String (List Constraint) := do
  let contra := contravariant_xform variance
  let constraints ← cx.add_constraints_from_ty_list constraints inputs contra
  cx.add_constraints_from_ty constraints output variance
termination_by sizeOf inputs + sizeOf output
decreasing_by
  all_goals simp_wf
  all_goals
    (try have h1 := mutbl_sizeOf_pos mt_mutbl) <;>
    (try have h2 := defid_sizeOf_pos def_id) <;>
    (try have h3 := ty_sizeOf_pos output) <;>
    (try have h4 := list_ty_sizeOf_pos inputs) <;>
    omega

/-- `ConstraintContext::add_constraints_from_mt`: a mutable location
forces the invariant transform. -/
def ConstraintContext.add_constraints_from_mt (cx : ConstraintContext)
    (constraints : List Constraint) (mt_ty : Ty) (mt_mutbl : Mutability)
    (variance : VarianceTerm) : Except String (List Constraint) :=
  match mt_mutbl with
  | .MutMutable =>
    let invar := invariant_xform variance
    cx.add_constraints_from_ty constraints mt_ty invar
  | .MutImmutable =>
    cx.add_constraints_from_ty constraints mt_ty variance
termination_by sizeOf mt_ty + 1
decreasing_by
  all_goals simp_wf
  all_goals
    (try have h1 := mutbl_sizeOf_pos mt_mutbl) <;>
    (try have h2 := defid_sizeOf_pos def_id) <;>
    (try have h3 := ty_sizeOf_pos output) <;>
    (try have h4 := list_ty_sizeOf_pos inputs) <;>
    omega

end

/-- `ConstraintContext`'s `visit_item`: seed the traversal at the
top-level positions of each variance-bearing item. -/
def ConstraintContext.visit_item (cx : ConstraintContext)
    (constraints : List Constraint) (item : Item) :
    Except String (List Constraint) :=
  match item.node with
  | .item_enum _ variants =>
    variants.foldlM (fun constraints args =>
      args.foldlM (fun constraints arg_ty =>
        cx.add_constraints_from_ty constraints arg_ty covariant_term)
        constraints) constraints
  | .item_struct _ fields =>
    fields.foldlM (fun constraints field_ty =>
      cx.add_constraints_from_ty constraints field_ty covariant_term)
      constraints
  | .item_trait _ methods =>
    methods.foldlM (fun constraints method => do
      let constraints ← match method.transformed_self_ty with
        | some self_ty =>
          -- the self type is in a contravariant position
          cx.add_constraints_from_ty constraints self_ty contravariant_term
        | none => pure constraints
      cx.add_constraints_from_sig constraints method.sig.inputs
        method.sig.output covariant_term) constraints
  | _ => .ok constraints

/-- `add_constraints_from_crate`: the second walk over the crate,
producing the constraint list. -/
def add_constraints_from_crate (cx : ConstraintContext)
    (crate : List Item) : Except String (List Constraint) :=
  crate.foldlM cx.visit_item []

/-!  Solving and publication (third phase). -/

theorem dropWhile_len_le {α : Type} (p : α → Bool) (l : List α) :
    (l.dropWhile p).length ≤ l.length := by
  induction l with
  | nil => simp [List.dropWhile]
  | cons a t ih =>
    simp only [List.dropWhile, List.length_cons]
    split
    · omega
    · simp

/-- The body of the inner grouping loop of `SolveContext::write`: fold one
inferred record and its solution into the `ItemVariances` being built;
`assert!(item_variances.self_param.is_none())` guards the self slot. -/
def push_info (item_variances : ItemVariances) (info : InferredInfo)
    (solution : Variance) : Except String ItemVariances :=
  match info.kind with
  | .SelfParam =>
    if item_variances.self_param.isSome then
      .error "assertion failed: item_variances.self_param.is_none()"
    else
      .ok { item_variances with self_param := some solution }
  | .TypeParam =>
    .ok { item_variances with
      type_params := item_variances.type_params ++ [solution] }
  | .RegionParam =>
    .ok { item_variances with
      region_params := item_variances.region_params ++ [solution] }

/-- `SolveContext::write`: walk the inferred records (paired positionally
with their solutions) in index order; each maximal run with one item id
becomes one `ItemVariances` entry, inserted into the variance map
(`assert!(newly_added)` on duplicates). -/
def write_loop (pairs : List (InferredInfo × Variance))
    (map : List (NodeId × ItemVariances)) :
    Except String (List (NodeId × ItemVariances)) :=
  match pairs with
  | [] => .ok map
  | (info, solution) :: rest0 =>
    -- the inner `while` always consumes the entry at the current index
    -- first (its condition holds on entry), then every following entry
    -- with the same item id
    let item_id := info.item_id
    let group := (info, solution) ::
      rest0.takeWhile (fun q => q.1.item_id == item_id)
    let rest := rest0.dropWhile (fun q => q.1.item_id == item_id)
    do
      let item_variances ← group.foldlM
        (fun iv q => push_info iv q.1 q.2) empty_item_variances
      if (map.lookup item_id).isSome then
        .error "assertion failed: newly_added"
      else
        write_loop rest ((item_id, item_variances) :: map)
termination_by pairs.length
decreasing_by
  have := dropWhile_len_le
    (fun q : InferredInfo × Variance => q.1.item_id == info.item_id) rest0
  simp only [List.length_cons]
  omega

/-- `solve_constraints`: build the initial all-Bivariant vector, run the
fixed-point solver, and publish the grouped results. -/
def solve_constraints (terms_cx : TermsContext)
    (constraints : List Constraint) :
    Except String (List (NodeId × ItemVariances)) :=
  let solutions := init_solutions terms_cx.num_inferred
  let solutions := solve constraints solutions
  write_loop (terms_cx.inferred_infos.zip solutions)
    terms_cx.item_variance_map

/-- `infer_variance`: the full pass.  The three oracle functions stand
for the `tcx` queries `ty::lookup_item_type(..).generics`,
`ty::lookup_trait_def(..).generics` and `ty::item_variances`. -/
def infer_variance (item_generics : DefId → ItemGenerics)
    (trait_generics : DefId → ItemGenerics)
    (external_variances : DefId → ItemVariances)
    (crate : List Item) :
    Except String (List (NodeId × ItemVariances)) := do
  let terms_cx ← determine_parameters_to_be_inferred crate
  let cx : ConstraintContext :=
    { terms_cx := terms_cx, item_generics := item_generics,
      trait_generics := trait_generics,
      external_variances := external_variances }
  let constraints ← add_constraints_from_crate cx crate
  solve_constraints terms_cx constraints

/-!  Example programs used by concrete claims and witnesses. -/

/-- Generics oracle returning no parameter defs (the examples below apply
no named items, so the oracle is never consulted). -/
def no_item_generics : DefId → ItemGenerics := fun _ => ⟨[], []⟩

/-- External-variance oracle for examples without cross-crate uses. -/
def no_external_variances : DefId → ItemVariances :=
  fun _ => empty_item_variances

/-- The example `enum OptMap<C> { Some(fn(C) -> C), None }`: item id 1,
type parameter `C` with node id 2; the first variant has the bare
function type as its only argument, the second has none. -/
def opt_map_item : Item :=
  { id := 1,
    node := .item_enum ⟨[], [2]⟩
      [[.ty_bare_fn [.ty_param ⟨0, 2⟩] (.ty_param ⟨0, 2⟩)], []] }

/-- A constraint context with a single inferred index 0 for parameter
node id 2 (used to witness the early-bound region case). -/
def example_cx : ConstraintContext :=
  { terms_cx := { inferred_map := [(2, 0)], inferred_infos := [],
                  item_variance_map := [] },
    item_generics := no_item_generics,
    trait_generics := no_item_generics,
    external_variances := no_external_variances }

theorem xform_cov_right : ∀ a : Variance, xform a .Covariant = a := by decide

/-!  The claims. -/

/-- C4: the variance transform satisfies the identity laws
`xform(a, Cov) = a`, `xform(Cov, a) = a`, `xform(Inv, a) = Inv` and
`xform(Biv, a) = Biv`. -/
theorem claim_C4_xform_identities :
    ∀ a : Variance, xform a .Covariant = a ∧ xform .Covariant a = a ∧
      xform .Invariant a = .Invariant ∧ xform .Bivariant a = .Bivariant := by
  decide

/-- C5: the smart term constructor `ConstraintContext::xform` preserves
evaluation semantics: evaluating `cc_xform t1 t2` under any solution
vector equals `xform` of the evaluations of `t1` and `t2`. -/
theorem claim_C5_smart_constructor_evaluation :
    ∀ (s : List Variance) (t1 t2 : VarianceTerm),
      evaluate s (cc_xform t1 t2) = xform (evaluate s t1) (evaluate s t2) := by
  intro s t1 t2
  cases t1 with
  | ConstantTerm c1 =>
    cases t2 with
    | ConstantTerm c2 => cases c1 <;> cases c2 <;> rfl
    | TransformTerm a b => rfl
    | InferredTerm i => rfl
  | TransformTerm a b =>
    cases t2 with
    | ConstantTerm c2 =>
      cases c2 <;> first | rfl | exact (xform_cov_right _).symm
    | TransformTerm c d => rfl
    | InferredTerm i => rfl
  | InferredTerm i =>
    cases t2 with
    | ConstantTerm c2 =>
      cases c2 <;> first | rfl | exact (xform_cov_right _).symm
    | TransformTerm a b => rfl
    | InferredTerm j => rfl

/-- C10: the variance transform is monotone in each argument with respect
to the lattice order, and consequently term evaluation is monotone in the
solution vector. -/
theorem claim_C10_xform_monotone :
    (∀ a a' b : Variance, vle a a' → vle (xform a b) (xform a' b)) ∧
    (∀ a b b' : Variance, vle b b' → vle (xform a b) (xform a b')) ∧
    (∀ (t s : List Variance) (term : VarianceTerm), ptwise_le t s →
      vle (evaluate t term) (evaluate s term)) :=
  ⟨by decide, by decide, fun _ _ term h => evaluate_mono h term⟩

/-- Witness for C10 at `a = Invariant`, `a' = Covariant`, `b = Covariant`. -/
theorem claim_C10_witness :
    vle .Invariant .Covariant ∧
    vle (xform .Invariant .Covariant) (xform .Covariant .Covariant) :=
  ⟨by decide, claim_C10_xform_monotone.1 .Invariant .Covariant .Covariant
    (by decide)⟩

/-- C2: the solver terminates: every constraint application is pointwise
decreasing in the lattice, each cell has lattice height at most 2 (so it
can strictly decrease at most twice starting from `Bivariant`), and the
fixed point is reached after at most `2 * N` full passes, so
`solve` equals the `2 * N`-fold iteration of a pass from the
all-Bivariant vector. -/
theorem claim_C2_solver_terminates :
    (∀ (s : List Variance) (c : Constraint), ptwise_le (solve_step s c) s) ∧
    (∀ v : Variance, height v ≤ 2) ∧
    (∀ (cs : List Constraint) (N : Nat),
      solve cs (init_solutions N)
        = (solve_pass cs)^[2 * N] (init_solutions N)) := by
  refine ⟨solve_step_ptwise_le, height_le_two, fun cs N => ?_⟩
  rw [solve_eq_iterate, weight_init]

/-- C1: after the fixed point, the solution satisfies every constraint
(`solutions[i]` is a lower bound of the evaluated term), and it is the
greatest such assignment: raising any cell strictly breaks some
constraint. -/
theorem claim_C1_solution_is_greatest (cs : List Constraint) (N : Nat)
    (hbound : ∀ c ∈ cs, c.inferred < N) :
    (∀ c ∈ cs, satisfies_constraint (solve cs (init_solutions N)) c) ∧
    (∀ t : List Variance, t.length = N →
      (∃ j, j < N ∧
        vle ((solve cs (init_solutions N)).getD j .Bivariant)
          (t.getD j .Bivariant) ∧
        (solve cs (init_solutions N)).getD j .Bivariant
          ≠ t.getD j .Bivariant) →
      ∃ c ∈ cs, ¬ satisfies_constraint t c) := by
  constructor
  · intro c hc
    exact solve_satisfies cs (init_solutions N) c hc
      (by rw [length_init]; exact hbound c hc)
  · rintro t hlen ⟨j, _, hle, hne⟩
    by_contra hall
    push_neg at hall
    have hgr := solve_greatest hlen hall
    exact hne (vle_antisymm _ _ hle (hgr.2 j))

/-- Witness for C1 at the constraint list `[(0, Cov)]` with `N = 1`. -/
theorem claim_C1_witness :
    (∀ c ∈ [Constraint.mk 0 (.ConstantTerm .Covariant)], c.inferred < 1) ∧
    (∀ c ∈ [Constraint.mk 0 (.ConstantTerm .Covariant)],
      satisfies_constraint
        (solve [Constraint.mk 0 (.ConstantTerm .Covariant)]
          (init_solutions 1)) c) := by
  have h : ∀ c ∈ [Constraint.mk 0 (.ConstantTerm .Covariant)],
      c.inferred < 1 := by decide
  exact ⟨h, (claim_C1_solution_is_greatest
    [Constraint.mk 0 (.ConstantTerm .Covariant)] 1 h).1⟩

/-- C3: the solver's result does not depend on the order of the
constraint list: permuted lists give identical solution vectors. -/
theorem claim_C3_order_independent (cs cs' : List Constraint) (N : Nat)
    (hperm : cs.Perm cs') (hbound : ∀ c ∈ cs, c.inferred < N) :
    solve cs (init_solutions N) = solve cs' (init_solutions N) := by
  have hbound' : ∀ c ∈ cs', c.inferred < N := fun c hc =>
    hbound c (hperm.symm.subset hc)
  have hsat : ∀ c ∈ cs,
      satisfies_constraint (solve cs (init_solutions N)) c := fun c hc =>
    solve_satisfies cs (init_solutions N) c hc
      (by rw [length_init]; exact hbound c hc)
  have hsat' : ∀ c ∈ cs',
      satisfies_constraint (solve cs' (init_solutions N)) c := fun c hc =>
    solve_satisfies cs' (init_solutions N) c hc
      (by rw [length_init]; exact hbound' c hc)
  have h1 : ptwise_le (solve cs (init_solutions N))
      (solve cs' (init_solutions N)) :=
    solve_greatest (by rw [solve_length, length_init])
      (fun c hc => hsat c (hperm.symm.subset hc))
  have h2 : ptwise_le (solve cs' (init_solutions N))
      (solve cs (init_solutions N)) :=
    solve_greatest (by rw [solve_length, length_init])
      (fun c hc => hsat' c (hperm.subset hc))
  exact ptwise_le_antisymm h1 h2

/-- Witness for C3 at the two-element list `[(0, Cov), (0, Contra)]` and
its swap, with `N = 1`. -/
theorem claim_C3_witness :
    ([Constraint.mk 0 covariant_term,
      Constraint.mk 0 contravariant_term].Perm
      [Constraint.mk 0 contravariant_term,
       Constraint.mk 0 covariant_term]) ∧
    (∀ c ∈ [Constraint.mk 0 covariant_term,
            Constraint.mk 0 contravariant_term], c.inferred < 1) ∧
    solve [Constraint.mk 0 covariant_term,
           Constraint.mk 0 contravariant_term] (init_solutions 1)
      = solve [Constraint.mk 0 contravariant_term,
               Constraint.mk 0 covariant_term] (init_solutions 1) := by
  have hb : ∀ c ∈ [Constraint.mk 0 covariant_term,
      Constraint.mk 0 contravariant_term], c.inferred < 1 := by decide
  exact ⟨List.Perm.swap _ _ _, hb,
    claim_C3_order_independent _ _ 1 (List.Perm.swap _ _ _) hb⟩

/-- C8: region traversal emits a constraint iff the region is
early-bound: an early-bound region with an inferred parameter id adds
exactly one constraint at the ambient term, `'static` and late-bound
regions add none, and every other region kind is a fatal error. -/
theorem claim_C8_region_cases (cx : ConstraintContext)
    (constraints : List Constraint) (variance : VarianceTerm) :
    (∀ p index, cx.terms_cx.inferred_map.lookup p = some index →
      cx.add_constraints_from_region constraints (.ReEarlyBound p) variance
        = .ok (add_constraint constraints index variance)) ∧
    (cx.add_constraints_from_region constraints .ReStatic variance
      = .ok constraints) ∧
    (cx.add_constraints_from_region constraints .ReLateBound variance
      = .ok constraints) ∧
    (∀ r, (r = .ReFree ∨ r = .ReScope ∨ r = .ReInfer ∨ r = .ReEmpty) →
      cx.add_constraints_from_region constraints r variance
        = .error "Unexpected region encountered in variance inference") := by
  refine ⟨?_, rfl, rfl, ?_⟩
  · intro p index h
    simp [ConstraintContext.add_constraints_from_region,
      ConstraintContext.inferred_index, h, bind, Except.bind]
  · rintro r (rfl | rfl | rfl | rfl) <;> rfl

/-- Witness for C8: the early-bound case at a context whose inferred map
sends parameter 2 to index 0. -/
theorem claim_C8_witness :
    example_cx.terms_cx.inferred_map.lookup 2 = some 0 ∧
    example_cx.add_constraints_from_region [] (.ReEarlyBound 2)
        covariant_term
      = .ok (add_constraint [] 0 covariant_term) :=
  ⟨rfl, (claim_C8_region_cases example_cx [] covariant_term).1 2 0 rfl⟩

/-- C9: on `enum OptMap<C> { Some(fn(C) -> C), None }` the pass generates
exactly the two constraints `V(C) <= Contravariant` (function input) and
`V(C) <= Covariant` (function output), `glb(Contra, Cov) = Inv`, and the
published entry is `type_params = [Invariant]`. -/
theorem claim_C9_opt_map :
    (do
      let t ← determine_parameters_to_be_inferred [opt_map_item]
      add_constraints_from_crate
        { terms_cx := t, item_generics := no_item_generics,
          trait_generics := no_item_generics,
          external_variances := no_external_variances } [opt_map_item])
      = .ok [{ inferred := 0, variance := .ConstantTerm .Contravariant },
             { inferred := 0, variance := .ConstantTerm .Covariant }] ∧
    glb .Contravariant .Covariant = .Invariant ∧
    infer_variance no_item_generics no_item_generics no_external_variances
        [opt_map_item]
      = .ok [(1, { self_param := none, type_params := [.Invariant],
                   region_params := [] })] := by
  refine ⟨?_, rfl, ?_⟩ <;>
    simp [infer_variance, determine_parameters_to_be_inferred,
      terms_visit_item, TermsContext.add_inferred, TermsContext.num_inferred,
      add_constraints_from_crate, ConstraintContext.visit_item,
      ConstraintContext.add_constraints_from_ty,
      ConstraintContext.add_constraints_from_ty_list,
      ConstraintContext.add_constraints_from_sig,
      ConstraintContext.inferred_index, add_constraint, opt_map_item,
      contravariant_xform, cc_xform, covariant_term, contravariant_term,
      constant_term, xform, List.foldlM, List.lookup, bind, Except.bind,
      pure, Except.pure, LOCAL_CRATE,
      solve_constraints, solve, solve_pass, solve_step, evaluate, glb,
      init_solutions, write_loop, push_info, empty_item_variances,
      List.takeWhile, List.dropWhile]

/-!  C6/C7 support: characterizing the indexer. -/

/-- The inferred records the indexer is expected to allocate for one kind
of parameter list: positions `j, j+1, ...` in declaration order, inferred
indices continuing from `k`.  (Spec-shaped description, to be compared
with what `terms_visit_item` actually does.) -/
def expected_infos (item_id : NodeId) (kind : ParamKind) :
    List NodeId → Nat → Nat → List InferredInfo
  | [], _, _ => []
  | p :: ps, j, k =>
    { item_id := item_id, kind := kind, index := j, param_id := p,
      term := .InferredTerm k } :: expected_infos item_id kind ps (j + 1) (k + 1)

/-- The contiguous inferred block for one item starting at inferred index
`k`: the `Self` inferred first (present iff the item is a trait, with
position 0 and `param_id` the item's own id), then the lifetime
parameters in declaration order, then the type parameters in declaration
order. -/
def item_expected_infos (item : Item) (k : Nat) : List InferredInfo :=
  match item.node with
  | .item_enum g _ | .item_struct g _ =>
    expected_infos item.id .RegionParam g.lifetimes 0 k ++
      expected_infos item.id .TypeParam g.ty_params 0 (k + g.lifetimes.length)
  | .item_trait g _ =>
    { item_id := item.id, kind := .SelfParam, index := 0,
      param_id := item.id, term := .InferredTerm k } ::
      (expected_infos item.id .RegionParam g.lifetimes 0 (k + 1) ++
        expected_infos item.id .TypeParam g.ty_params 0
          (k + 1 + g.lifetimes.length))
  | _ => []

/-- Whether the indexer installs the empty variance-map entry for this
item: a variance-bearing enum or struct with no generics at all (a trait
always allocates its `Self` inferred first, so it never qualifies). -/
def installs_empty (item : Item) : Bool :=
  match item.node with
  | .item_enum g _ | .item_struct g _ =>
    g.lifetimes.isEmpty && g.ty_params.isEmpty
  | _ => false

theorem expected_infos_length (item_id : NodeId) (kind : ParamKind) :
    ∀ (ps : List NodeId) (j k : Nat),
      (expected_infos item_id kind ps j k).length = ps.length := by
  intro ps
  induction ps with
  | nil => intro j k; rfl
  | cons p ps ih => intro j k; simp [expected_infos, ih]

theorem add_inferred_ok {cx cx' : TermsContext} {item_id : NodeId}
    {kind : ParamKind} {index : Nat} {param_id : NodeId}
    (h : cx.add_inferred item_id kind index param_id = .ok cx') :
    cx' = { cx with
      inferred_infos := cx.inferred_infos ++
        [{ item_id := item_id, kind := kind, index := index,
           param_id := param_id,
           term := .InferredTerm cx.inferred_infos.length }],
      inferred_map :=
        (param_id, cx.inferred_infos.length) :: cx.inferred_map } := by
  unfold TermsContext.add_inferred at h
  split at h
  · cases h
  · injection h with h
    exact h.symm

theorem foldlM_add_inferred (item_id : NodeId) (kind : ParamKind)
    (ps : List NodeId) :
    ∀ (j : Nat) (cx cx' : TermsContext),
      (ps.enumFrom j).foldlM
        (fun cx ip => cx.add_inferred item_id kind ip.1 ip.2) cx = .ok cx' →
      cx'.inferred_infos = cx.inferred_infos ++
        expected_infos item_id kind ps j cx.inferred_infos.length ∧
      cx'.item_variance_map = cx.item_variance_map := by
  induction ps with
  | nil =>
    intro j cx cx' h
    simp only [List.enumFrom, List.foldlM, pure, Except.pure] at h
    injection h with h
    subst h
    simp [expected_infos]
  | cons p ps ih =>
    intro j cx cx' h
    simp only [List.enumFrom, List.foldlM] at h
    cases hstep : cx.add_inferred item_id kind j p with
    | error e =>
      rw [hstep] at h
      simp [bind, Except.bind] at h
    | ok cx1 =>
      rw [hstep] at h
      simp only [bind, Except.bind] at h
      obtain ⟨h1, h2⟩ := ih (j + 1) cx1 cx' h
      have hc := add_inferred_ok hstep
      subst hc
      refine ⟨?_, by simpa using h2⟩
      simp only at h1
      rw [h1]
      simp [expected_infos, List.append_assoc]

theorem terms_visit_item_char (cx cx' : TermsContext) (item : Item)
    (h : terms_visit_item cx item = .ok cx') :
    cx'.inferred_infos = cx.inferred_infos ++
      item_expected_infos item cx.inferred_infos.length ∧
    cx'.item_variance_map =
      (if installs_empty item then
        (item.id, empty_item_variances) :: cx.item_variance_map
      else cx.item_variance_map) := by
  obtain ⟨id, node⟩ := item
  cases node with
  | item_enum g variants =>
    simp only [terms_visit_item, bind, Except.bind, pure, Except.pure] at h
    cases hf1 : g.lifetimes.enum.foldlM
        (fun cx ip => cx.add_inferred id .RegionParam ip.1 ip.2) cx with
    | error e => rw [hf1] at h; cases h
    | ok cx1 =>
      rw [hf1] at h
      dsimp only at h
      rw [List.enum] at hf1
      obtain ⟨h1a, h1b⟩ := foldlM_add_inferred id .RegionParam g.lifetimes 0 cx cx1 hf1
      cases hf2 : g.ty_params.enum.foldlM
          (fun cx ip => cx.add_inferred id .TypeParam ip.1 ip.2) cx1 with
      | error e => rw [hf2] at h; cases h
      | ok cx2 =>
        rw [hf2] at h
        dsimp only at h
        rw [List.enum] at hf2
        obtain ⟨h2a, h2b⟩ :=
          foldlM_add_inferred id .TypeParam g.ty_params 0 cx1 cx2 hf2
        have hinfos : cx2.inferred_infos = cx.inferred_infos ++
            (expected_infos id .RegionParam g.lifetimes 0
              cx.inferred_infos.length ++
            expected_infos id .TypeParam g.ty_params 0
              (cx.inferred_infos.length + g.lifetimes.length)) := by
          rw [h2a, h1a]
          simp [List.append_assoc, expected_infos_length]
        have hlen : cx2.num_inferred = cx.num_inferred +
            (g.lifetimes.length + g.ty_params.length) := by
          simp [TermsContext.num_inferred, hinfos, expected_infos_length]
        split at h
        next hcond =>
          -- no inferreds were added: both parameter lists are empty
          have heq : cx2.num_inferred = cx.num_inferred := by
            simpa using hcond
          have hlt : g.lifetimes = [] := List.length_eq_zero.mp (by omega)
          have htp : g.ty_params = [] := List.length_eq_zero.mp (by omega)
          split at h
          · cases h
          · injection h with h
            subst h
            constructor
            · simp [hinfos, item_expected_infos, hlt, htp, expected_infos]
            · simp [installs_empty, hlt, htp, h2b, h1b]
        next hcond =>
          injection h with h
          subst h
          have hne : ¬(g.lifetimes.isEmpty && g.ty_params.isEmpty) = true := by
            intro hcontra
            apply hcond
            simp only [Bool.and_eq_true, List.isEmpty_iff] at hcontra
            have heq2 : cx2.num_inferred = cx.num_inferred := by
              rw [hlen, hcontra.1, hcontra.2]; rfl
            rw [heq2]
            simp
          constructor
          · rw [hinfos]; rfl
          · rw [h2b, h1b]
            simp [installs_empty, hne]
  | item_struct g fields =>
    simp only [terms_visit_item, bind, Except.bind, pure, Except.pure] at h
    cases hf1 : g.lifetimes.enum.foldlM
        (fun cx ip => cx.add_inferred id .RegionParam ip.1 ip.2) cx with
    | error e => rw [hf1] at h; cases h
    | ok cx1 =>
      rw [hf1] at h
      dsimp only at h
      rw [List.enum] at hf1
      obtain ⟨h1a, h1b⟩ := foldlM_add_inferred id .RegionParam g.lifetimes 0 cx cx1 hf1
      cases hf2 : g.ty_params.enum.foldlM
          (fun cx ip => cx.add_inferred id .TypeParam ip.1 ip.2) cx1 with
      | error e => rw [hf2] at h; cases h
      | ok cx2 =>
        rw [hf2] at h
        dsimp only at h
        rw [List.enum] at hf2
        obtain ⟨h2a, h2b⟩ :=
          foldlM_add_inferred id .TypeParam g.ty_params 0 cx1 cx2 hf2
        have hinfos : cx2.inferred_infos = cx.inferred_infos ++
            (expected_infos id .RegionParam g.lifetimes 0
              cx.inferred_infos.length ++
            expected_infos id .TypeParam g.ty_params 0
              (cx.inferred_infos.length + g.lifetimes.length)) := by
          rw [h2a, h1a]
          simp [List.append_assoc, expected_infos_length]
        have hlen : cx2.num_inferred = cx.num_inferred +
            (g.lifetimes.length + g.ty_params.length) := by
          simp [TermsContext.num_inferred, hinfos, expected_infos_length]
        split at h
        next hcond =>
          have heq : cx2.num_inferred = cx.num_inferred := by
            simpa using hcond
          have hlt : g.lifetimes = [] := List.length_eq_zero.mp (by omega)
          have htp : g.ty_params = [] := List.length_eq_zero.mp (by omega)
          split at h
          · cases h
          · injection h with h
            subst h
            constructor
            · simp [hinfos, item_expected_infos, hlt, htp, expected_infos]
            · simp [installs_empty, hlt, htp, h2b, h1b]
        next hcond =>
          injection h with h
          subst h
          have hne : ¬(g.lifetimes.isEmpty && g.ty_params.isEmpty) = true := by
            intro hcontra
            apply hcond
            simp only [Bool.and_eq_true, List.isEmpty_iff] at hcontra
            have heq2 : cx2.num_inferred = cx.num_inferred := by
              rw [hlen, hcontra.1, hcontra.2]; rfl
            rw [heq2]
            simp
          constructor
          · rw [hinfos]; rfl
          · rw [h2b, h1b]
            simp [installs_empty, hne]
  | item_trait g methods =>
    simp only [terms_visit_item, bind, Except.bind, pure, Except.pure] at h
    cases hself : cx.add_inferred id .SelfParam 0 id with
    | error e => rw [hself] at h; cases h
    | ok cxs =>
      rw [hself] at h
      dsimp only at h
      have hcs := add_inferred_ok hself
      cases hf1 : g.lifetimes.enum.foldlM
          (fun cx ip => cx.add_inferred id .RegionParam ip.1 ip.2) cxs with
      | error e => rw [hf1] at h; cases h
      | ok cx1 =>
        rw [hf1] at h
        dsimp only at h
        rw [List.enum] at hf1
        obtain ⟨h1a, h1b⟩ :=
          foldlM_add_inferred id .RegionParam g.lifetimes 0 cxs cx1 hf1
        cases hf2 : g.ty_params.enum.foldlM
            (fun cx ip => cx.add_inferred id .TypeParam ip.1 ip.2) cx1 with
        | error e => rw [hf2] at h; cases h
        | ok cx2 =>
          rw [hf2] at h
          dsimp only at h
          rw [List.enum] at hf2
          obtain ⟨h2a, h2b⟩ :=
            foldlM_add_inferred id .TypeParam g.ty_params 0 cx1 cx2 hf2
          have hsinfos : cxs.inferred_infos = cx.inferred_infos ++
              [{ item_id := id, kind := .SelfParam, index := 0,
                 param_id := id,
                 term := .InferredTerm cx.inferred_infos.length }] := by
            rw [hcs]
          have hinfos : cx2.inferred_infos = cx.inferred_infos ++
              ({ item_id := id, kind := .SelfParam, index := 0,
                 param_id := id,
                 term := .InferredTerm cx.inferred_infos.length } ::
               (expected_infos id .RegionParam g.lifetimes 0
                 (cx.inferred_infos.length + 1) ++
               expected_infos id .TypeParam g.ty_params 0
                 (cx.inferred_infos.length + 1 + g.lifetimes.length))) := by
            rw [h2a, h1a, hsinfos]
            simp [List.append_assoc, expected_infos_length, Nat.add_assoc]
            congr 1
            omega
          have hlen : cx2.num_inferred = cx.num_inferred + 1 +
              (g.lifetimes.length + g.ty_params.length) := by
            simp [TermsContext.num_inferred, hinfos, expected_infos_length]
            omega
          split at h
          next hcond =>
            exfalso
            have heq : cx2.num_inferred = cx.num_inferred := by
              simpa using hcond
            omega
          next hcond =>
            injection h with h
            subst h
            constructor
            · rw [hinfos]; rfl
            · rw [h2b, h1b, hcs]
              simp [installs_empty]
  | item_impl =>
    simp only [terms_visit_item, bind, Except.bind, pure, Except.pure] at h
    injection h with h
    subst h
    simp [item_expected_infos, installs_empty]
  | item_static =>
    simp only [terms_visit_item, bind, Except.bind, pure, Except.pure] at h
    injection h with h
    subst h
    simp [item_expected_infos, installs_empty]
  | item_fn =>
    simp only [terms_visit_item, bind, Except.bind, pure, Except.pure] at h
    injection h with h
    subst h
    simp [item_expected_infos, installs_empty]
  | item_mod =>
    simp only [terms_visit_item, bind, Except.bind, pure, Except.pure] at h
    injection h with h
    subst h
    simp [item_expected_infos, installs_empty]
  | item_foreign_mod =>
    simp only [terms_visit_item, bind, Except.bind, pure, Except.pure] at h
    injection h with h
    subst h
    simp [item_expected_infos, installs_empty]
  | item_ty =>
    simp only [terms_visit_item, bind, Except.bind, pure, Except.pure] at h
    injection h with h
    subst h
    simp [item_expected_infos, installs_empty]
  | item_mac =>
    simp only [terms_visit_item, bind, Except.bind, pure, Except.pure] at h
    injection h with h
    subst h
    simp [item_expected_infos, installs_empty]

/-- C6: the inferred indices allocated by the indexer for one item form a
single contiguous block appended at the end of the inferred table; within
the block the `Self` inferred (present iff the item is a trait, with
position 0 and `param_id` equal to the item's id) comes first, followed
by the lifetime parameters in declaration order, followed by the type
parameters in declaration order. -/
theorem claim_C6_indexer_contiguous (cx cx' : TermsContext) (item : Item)
    (h : terms_visit_item cx item = .ok cx') :
    cx'.inferred_infos = cx.inferred_infos ++
      item_expected_infos item cx.inferred_infos.length :=
  (terms_visit_item_char cx cx' item h).1

/-- The example trait `trait T<'a, X>`: item id 10, lifetime node id 11,
type parameter node id 12, no methods (only the indexer looks at it). -/
def example_trait_item : Item :=
  { id := 10, node := .item_trait ⟨[11], [12]⟩ [] }

/-- Witness for C6: visiting the example trait from the empty context
yields exactly its expected block, starting at index 0. -/
theorem claim_C6_witness :
    ∃ cx', terms_visit_item ⟨[], [], []⟩ example_trait_item = .ok cx' ∧
      cx'.inferred_infos = item_expected_infos example_trait_item 0 := by
  refine ⟨_, rfl, ?_⟩
  have h := claim_C6_indexer_contiguous ⟨[], [], []⟩ _ example_trait_item rfl
  simpa using h

/-!  C7 support: per-item declarations and crate-level characterization. -/

/-- The declared generics of a variance-bearing item node. -/
def node_generics : ItemNode → Option Generics
  | .item_enum g _ => some g
  | .item_struct g _ => some g
  | .item_trait g _ => some g
  | _ => none

/-- Whether an item node is a trait. -/
def is_trait_node : ItemNode → Bool
  | .item_trait _ _ => true
  | _ => false

/-- The declared lifetime parameters of an item (empty for items that
declare none). -/
def decl_lifetimes (item : Item) : List NodeId :=
  match item.node with
  | .item_enum g _ | .item_struct g _ | .item_trait g _ => g.lifetimes
  | _ => []

/-- The declared type parameters of an item. -/
def decl_ty_params (item : Item) : List NodeId :=
  match item.node with
  | .item_enum g _ | .item_struct g _ | .item_trait g _ => g.ty_params
  | _ => []

/-- How many inferreds the indexer allocates for this item. -/
def item_num_inferred (item : Item) : Nat :=
  (item_expected_infos item 0).length

/-- Whether the indexer allocates at least one inferred for this item. -/
def item_allocates (item : Item) : Bool := !(item_num_inferred item == 0)

/-- The concatenated inferred blocks of a crate, starting at index `k`. -/
def crate_infos : List Item → Nat → List InferredInfo
  | [], _ => []
  | it :: rest, k =>
    item_expected_infos it k ++
      crate_infos rest (k + (item_expected_infos it k).length)

/-- The variance-map entries the indexer installs while walking the
crate, prepended in walk order onto an initial map. -/
def crate_entries_acc : List Item → List (NodeId × ItemVariances) →
    List (NodeId × ItemVariances)
  | [], m => m
  | it :: rest, m =>
    crate_entries_acc rest
      (if installs_empty it then (it.id, empty_item_variances) :: m else m)

theorem item_expected_infos_length (item : Item) (k : Nat) :
    (item_expected_infos item k).length = item_num_inferred item := by
  obtain ⟨id, node⟩ := item
  cases node <;>
    simp [item_expected_infos, item_num_inferred, expected_infos_length]

theorem expected_infos_mem (iid : NodeId) (kind : ParamKind) :
    ∀ (ps : List NodeId) (j k : Nat) (info : InferredInfo),
      info ∈ expected_infos iid kind ps j k →
      info.item_id = iid ∧ info.kind = kind := by
  intro ps
  induction ps with
  | nil => intro j k info h; simp [expected_infos] at h
  | cons p ps ih =>
    intro j k info h
    simp only [expected_infos, List.mem_cons] at h
    rcases h with rfl | h
    · exact ⟨rfl, rfl⟩
    · exact ih (j + 1) (k + 1) info h

theorem expected_infos_count_kind (iid : NodeId) (kind K : ParamKind) :
    ∀ (ps : List NodeId) (j k : Nat),
      (expected_infos iid kind ps j k).countP
          (fun info => info.kind == K) =
        if kind = K then ps.length else 0 := by
  intro ps
  induction ps with
  | nil => intro j k; simp [expected_infos]
  | cons p ps ih =>
    intro j k
    simp only [expected_infos, List.countP_cons, ih (j + 1) (k + 1)]
    by_cases h : kind = K <;> simp [h]

theorem item_expected_infos_count_type (item : Item) (k : Nat) :
    (item_expected_infos item k).countP
        (fun info => info.kind == ParamKind.TypeParam) =
      (decl_ty_params item).length := by
  obtain ⟨id, node⟩ := item
  cases node <;>
    simp [item_expected_infos, decl_ty_params, List.countP_append,
      List.countP_cons, expected_infos_count_kind]

theorem item_expected_infos_count_region (item : Item) (k : Nat) :
    (item_expected_infos item k).countP
        (fun info => info.kind == ParamKind.RegionParam) =
      (decl_lifetimes item).length := by
  obtain ⟨id, node⟩ := item
  cases node <;>
    simp [item_expected_infos, decl_lifetimes, List.countP_append,
      List.countP_cons, expected_infos_count_kind]

theorem item_expected_infos_self (item : Item) (k : Nat) :
    (∃ info ∈ item_expected_infos item k, info.kind = .SelfParam) ↔
      is_trait_node item.node = true := by
  obtain ⟨id, node⟩ := item
  cases node with
  | item_enum g variants =>
    simp only [item_expected_infos, is_trait_node, List.mem_append]
    constructor
    · rintro ⟨info, h | h, hk⟩
      · have hkk := (expected_infos_mem _ _ _ _ _ info h).2
        rw [hkk] at hk; cases hk
      · have hkk := (expected_infos_mem _ _ _ _ _ info h).2
        rw [hkk] at hk; cases hk
    · intro h; cases h
  | item_struct g fields =>
    simp only [item_expected_infos, is_trait_node, List.mem_append]
    constructor
    · rintro ⟨info, h | h, hk⟩
      · have hkk := (expected_infos_mem _ _ _ _ _ info h).2
        rw [hkk] at hk; cases hk
      · have hkk := (expected_infos_mem _ _ _ _ _ info h).2
        rw [hkk] at hk; cases hk
    · intro h; cases h
  | item_trait g methods =>
    simp only [item_expected_infos, is_trait_node, iff_true]
    exact ⟨_, List.mem_cons_self _ _, rfl⟩
  | item_impl => simp [item_expected_infos, is_trait_node]
  | item_static => simp [item_expected_infos, is_trait_node]
  | item_fn => simp [item_expected_infos, is_trait_node]
  | item_mod => simp [item_expected_infos, is_trait_node]
  | item_foreign_mod => simp [item_expected_infos, is_trait_node]
  | item_ty => simp [item_expected_infos, is_trait_node]
  | item_mac => simp [item_expected_infos, is_trait_node]

theorem item_expected_infos_item_id (item : Item) (k : Nat) :
    ∀ info ∈ item_expected_infos item k, info.item_id = item.id := by
  obtain ⟨id, node⟩ := item
  intro info h
  cases node <;>
    simp only [item_expected_infos, List.mem_append, List.mem_cons] at h
  case item_enum g variants =>
    rcases h with h | h <;> exact (expected_infos_mem _ _ _ _ _ info h).1
  case item_struct g fields =>
    rcases h with h | h <;> exact (expected_infos_mem _ _ _ _ _ info h).1
  case item_trait g methods =>
    rcases h with rfl | h | h
    · rfl
    · exact (expected_infos_mem _ _ _ _ _ info h).1
    · exact (expected_infos_mem _ _ _ _ _ info h).1
  all_goals cases h

theorem item_num_inferred_eq (item : Item) :
    item_num_inferred item =
      (if is_trait_node item.node then 1 else 0) +
        (decl_lifetimes item).length + (decl_ty_params item).length := by
  obtain ⟨id, node⟩ := item
  cases node <;>
    simp [item_num_inferred, item_expected_infos, is_trait_node,
      decl_lifetimes, decl_ty_params, expected_infos_length]
  case item_trait g methods => omega

theorem installs_not_allocates (item : Item)
    (h : installs_empty item = true) : item_allocates item = false := by
  obtain ⟨id, node⟩ := item
  cases node <;> simp [installs_empty] at h <;>
    simp [item_allocates, item_num_inferred_eq, is_trait_node,
      decl_lifetimes, decl_ty_params, h.1, h.2]

theorem bearing_installs_or_allocates (item : Item) (g : Generics)
    (hg : node_generics item.node = some g) :
    installs_empty item = true ∨ item_allocates item = true := by
  by_cases hi : installs_empty item = true
  · exact Or.inl hi
  · right
    obtain ⟨id, node⟩ := item
    cases node with
    | item_enum g0 variants =>
      rcases g0 with ⟨lts, tps⟩
      cases lts with
      | cons a l =>
        simp [item_allocates, item_num_inferred_eq, is_trait_node,
          decl_lifetimes, decl_ty_params]
      | nil =>
        cases tps with
        | cons a l =>
          simp [item_allocates, item_num_inferred_eq, is_trait_node,
            decl_lifetimes, decl_ty_params]
        | nil => simp [installs_empty] at hi
    | item_struct g0 fields =>
      rcases g0 with ⟨lts, tps⟩
      cases lts with
      | cons a l =>
        simp [item_allocates, item_num_inferred_eq, is_trait_node,
          decl_lifetimes, decl_ty_params]
      | nil =>
        cases tps with
        | cons a l =>
          simp [item_allocates, item_num_inferred_eq, is_trait_node,
            decl_lifetimes, decl_ty_params]
        | nil => simp [installs_empty] at hi
    | item_trait g0 methods =>
      simp [item_allocates, item_num_inferred_eq, is_trait_node]
    | item_impl => simp [node_generics] at hg
    | item_static => simp [node_generics] at hg
    | item_fn => simp [node_generics] at hg
    | item_mod => simp [node_generics] at hg
    | item_foreign_mod => simp [node_generics] at hg
    | item_ty => simp [node_generics] at hg
    | item_mac => simp [node_generics] at hg
theorem installs_generics_empty (item : Item)
    (h : installs_empty item = true) :
    decl_lifetimes item = [] ∧ decl_ty_params item = [] ∧
      is_trait_node item.node = false := by
  obtain ⟨id, node⟩ := item
  cases node <;> simp [installs_empty] at h <;>
    simp [decl_lifetimes, decl_ty_params, is_trait_node, h.1, h.2]

theorem lookup_eq_none_entries {β : Type} :
    ∀ (m : List (NodeId × β)) (id : NodeId),
      (∀ e ∈ m, e.1 ≠ id) → m.lookup id = none := by
  intro m
  induction m with
  | nil => intro id _; rfl
  | cons e m ih =>
    intro id h
    have h1 : e.1 ≠ id := h e (List.mem_cons_self e m)
    have h2 : (id == e.1) = false := by
      simp
      exact fun hc => h1 (by rw [hc])
    simp only [List.lookup, h2]
    exact ih id (fun e' he' => h e' (List.mem_cons_of_mem e he'))

theorem nodup_map_inj {α : Type} {f : α → NodeId} {l : List α}
    (h : (l.map f).Nodup) :
    ∀ a ∈ l, ∀ b ∈ l, f a = f b → a = b := by
  intro a ha b hb hf
  exact List.inj_on_of_nodup_map h ha hb hf

theorem foldlM_visit_char (crate : List Item) :
    ∀ (cx tcx : TermsContext),
      crate.foldlM terms_visit_item cx = .ok tcx →
      tcx.inferred_infos = cx.inferred_infos ++
        crate_infos crate cx.inferred_infos.length ∧
      tcx.item_variance_map = crate_entries_acc crate cx.item_variance_map := by
  induction crate with
  | nil =>
    intro cx tcx h
    simp only [List.foldlM, pure, Except.pure] at h
    injection h with h
    subst h
    simp [crate_infos, crate_entries_acc]
  | cons it rest ih =>
    intro cx tcx h
    simp only [List.foldlM] at h
    cases hv : terms_visit_item cx it with
    | error e => rw [hv] at h; simp [bind, Except.bind] at h
    | ok cx1 =>
      rw [hv] at h
      simp only [bind, Except.bind] at h
      obtain ⟨h1, h2⟩ := terms_visit_item_char cx cx1 it hv
      obtain ⟨h3, h4⟩ := ih cx1 tcx h
      constructor
      · rw [h3, h1]
        simp [crate_infos, List.append_assoc, item_expected_infos_length]
      · rw [h4, h2]
        rfl

theorem crate_entries_acc_mem (crate : List Item) :
    ∀ (m : List (NodeId × ItemVariances)) (id : NodeId)
      (iv : ItemVariances),
      ((id, iv) ∈ crate_entries_acc crate m ↔
        (id, iv) ∈ m ∨ ∃ it, it ∈ crate ∧ installs_empty it = true ∧
          it.id = id ∧ iv = empty_item_variances) := by
  induction crate with
  | nil => intro m id iv; simp [crate_entries_acc]
  | cons it rest ih =>
    intro m id iv
    simp only [crate_entries_acc]
    split
    next hin =>
      rw [ih]
      simp only [List.mem_cons]
      constructor
      · rintro ((heq | hm) | ⟨it', hmem, h1, h2, h3⟩)
        · injection heq with e1 e2
          exact Or.inr ⟨it, Or.inl rfl, hin, e1.symm, e2⟩
        · exact Or.inl hm
        · exact Or.inr ⟨it', Or.inr hmem, h1, h2, h3⟩
      · rintro (hm | ⟨it', hmem, h1, h2, h3⟩)
        · exact Or.inl (Or.inr hm)
        · rcases hmem with rfl | hmem'
          · subst h2; subst h3; exact Or.inl (Or.inl rfl)
          · exact Or.inr ⟨it', hmem', h1, h2, h3⟩
    next hin =>
      rw [ih]
      constructor
      · rintro (hm | ⟨it', hmem, h1, h2, h3⟩)
        · exact Or.inl hm
        · exact Or.inr ⟨it', List.mem_cons_of_mem it hmem, h1, h2, h3⟩
      · rintro (hm | ⟨it', hmem, h1, h2, h3⟩)
        · exact Or.inl hm
        · rcases List.mem_cons.mp hmem with rfl | hmem'
          · rw [h1] at hin; cases hin rfl
          · exact Or.inr ⟨it', hmem', h1, h2, h3⟩

theorem crate_entries_acc_countP (p : NodeId × ItemVariances → Bool)
    (crate : List Item) :
    ∀ m : List (NodeId × ItemVariances),
      (crate_entries_acc crate m).countP p =
        crate.countP
          (fun it => installs_empty it &&
            p (it.id, empty_item_variances)) + m.countP p := by
  induction crate with
  | nil => intro m; simp [crate_entries_acc]
  | cons it rest ih =>
    intro m
    simp only [crate_entries_acc, List.countP_cons]
    split
    next hin =>
      rw [ih]
      simp only [List.countP_cons, hin, Bool.true_and]
      omega
    next hin =>
      rw [ih]
      simp only [Bool.not_eq_true] at hin
      simp [hin]

theorem takeWhile_append_all {α : Type} (p : α → Bool) :
    ∀ (l1 l2 : List α), (∀ a ∈ l1, p a = true) →
      (l1 ++ l2).takeWhile p = l1 ++ l2.takeWhile p := by
  intro l1
  induction l1 with
  | nil => intro l2 _; simp
  | cons a l ih =>
    intro l2 h
    have ha := h a (List.mem_cons_self a l)
    simp only [List.cons_append, List.takeWhile_cons, ha, if_true]
    rw [ih l2 (fun b hb => h b (List.mem_cons_of_mem a hb))]

theorem dropWhile_append_all {α : Type} (p : α → Bool) :
    ∀ (l1 l2 : List α), (∀ a ∈ l1, p a = true) →
      (l1 ++ l2).dropWhile p = l2.dropWhile p := by
  intro l1
  induction l1 with
  | nil => intro l2 _; simp
  | cons a l ih =>
    intro l2 h
    have ha := h a (List.mem_cons_self a l)
    simp only [List.cons_append, List.dropWhile_cons, ha, if_true]
    exact ih l2 (fun b hb => h b (List.mem_cons_of_mem a hb))

theorem zip_append_exact {α β : Type} :
    ∀ (l1 : List α) (s : List β) (l2 : List α),
      l1.length ≤ s.length →
      (l1 ++ l2).zip s =
        l1.zip (s.take l1.length) ++ l2.zip (s.drop l1.length) := by
  intro l1
  induction l1 with
  | nil => intro s l2 _; simp
  | cons a l ih =>
    intro s l2 h
    cases s with
    | nil => simp at h
    | cons b s' =>
      simp only [List.cons_append, List.zip_cons_cons, List.length_cons,
        List.take_succ_cons, List.drop_succ_cons]
      rw [ih s' l2 (by simpa using h)]

theorem countP_zip_left {α β : Type} (p : α → Bool) :
    ∀ (l : List α) (s : List β), l.length ≤ s.length →
      (l.zip s).countP (fun q => p q.1) = l.countP p := by
  intro l
  induction l with
  | nil => intro s _; simp
  | cons a l ih =>
    intro s h
    cases s with
    | nil => simp at h
    | cons b s' =>
      simp only [List.zip_cons_cons, List.countP_cons]
      rw [ih s' (by simpa using h)]

theorem push_fold_char :
    ∀ (pairs : List (InferredInfo × Variance)) (iv0 iv' : ItemVariances),
      pairs.foldlM (fun iv q => push_info iv q.1 q.2) iv0 = .ok iv' →
      iv'.type_params.length = iv0.type_params.length +
        pairs.countP (fun q => q.1.kind == ParamKind.TypeParam) ∧
      iv'.region_params.length = iv0.region_params.length +
        pairs.countP (fun q => q.1.kind == ParamKind.RegionParam) ∧
      (iv'.self_param.isSome = true ↔ (iv0.self_param.isSome = true ∨
        ∃ q ∈ pairs, q.1.kind = ParamKind.SelfParam)) := by
  intro pairs
  induction pairs with
  | nil =>
    intro iv0 iv' h
    simp only [List.foldlM, pure, Except.pure] at h
    injection h with h; subst h
    simp
  | cons q rest ih =>
    intro iv0 iv' h
    simp only [List.foldlM] at h
    cases hp : push_info iv0 q.1 q.2 with
    | error e => rw [hp] at h; simp [bind, Except.bind] at h
    | ok iv1 =>
      rw [hp] at h
      simp only [bind, Except.bind] at h
      obtain ⟨h1, h2, h3⟩ := ih iv1 iv' h
      rcases q with ⟨info, v⟩
      cases hk : info.kind with
      | SelfParam =>
        simp only [push_info, hk] at hp
        by_cases hs : iv0.self_param.isSome = true
        · rw [if_pos hs] at hp; cases hp
        · rw [if_neg hs] at hp
          injection hp with hp
          subst hp
          refine ⟨?_, ?_, ?_⟩
          · rw [h1]; simp [List.countP_cons, hk]
          · rw [h2]; simp [List.countP_cons, hk]
          · rw [h3]; simp [hk]
      | TypeParam =>
        simp only [push_info, hk] at hp
        injection hp with hp
        subst hp
        refine ⟨?_, ?_, ?_⟩
        · rw [h1]; simp [List.countP_cons, hk]; omega
        · rw [h2]; simp [List.countP_cons, hk]
        · rw [h3]; simp [hk]
      | RegionParam =>
        simp only [push_info, hk] at hp
        injection hp with hp
        subst hp
        refine ⟨?_, ?_, ?_⟩
        · rw [h1]; simp [List.countP_cons, hk]
        · rw [h2]; simp [List.countP_cons, hk]; omega
        · rw [h3]; simp [hk]

theorem zip_take_eq {α β : Type} :
    ∀ (l : List α) (s : List β), l.zip (s.take l.length) = l.zip s := by
  intro l
  induction l with
  | nil => intro s; simp
  | cons a l ih =>
    intro s
    cases s with
    | nil => simp
    | cons b s' =>
      simp only [List.length_cons, List.take_succ_cons, List.zip_cons_cons]
      rw [ih s']

theorem mem_zip_of_mem_left {α β : Type} :
    ∀ (l : List α) (s : List β) (a : α), l.length ≤ s.length → a ∈ l →
      ∃ b, (a, b) ∈ l.zip s := by
  intro l
  induction l with
  | nil => intro s a _ ha; cases ha
  | cons x l ih =>
    intro s a hlen ha
    cases s with
    | nil => simp at hlen
    | cons b s' =>
      rcases List.mem_cons.mp ha with rfl | ha'
      · exact ⟨b, List.mem_cons_self _ _⟩
      · obtain ⟨b', hb'⟩ := ih s' a (by simpa using hlen) ha'
        exact ⟨b', List.mem_cons_of_mem _ hb'⟩

/-- The inferred/solution pairs `SolveContext::write` walks, grouped by
the per-item blocks the indexer produced. -/
def crate_pairs : List Item → Nat → List Variance →
    List (InferredInfo × Variance)
  | [], _, _ => []
  | it :: rest, k, sols =>
    (item_expected_infos it k).zip sols ++
      crate_pairs rest (k + (item_expected_infos it k).length)
        (sols.drop (item_expected_infos it k).length)

theorem crate_pairs_eq_zip :
    ∀ (crate : List Item) (k : Nat) (sols : List Variance),
      (crate_infos crate k).length ≤ sols.length →
      crate_pairs crate k sols = (crate_infos crate k).zip sols := by
  intro crate
  induction crate with
  | nil => intro k sols _; simp [crate_pairs, crate_infos]
  | cons it rest ih =>
    intro k sols hlen
    simp only [crate_infos, List.length_append] at hlen
    simp only [crate_pairs, crate_infos]
    rw [zip_append_exact (item_expected_infos it k) sols
      (crate_infos rest (k + (item_expected_infos it k).length))
      (by omega)]
    rw [zip_take_eq]
    rw [ih (k + (item_expected_infos it k).length)
      ((sols.drop (item_expected_infos it k).length))
      (by simp; omega)]

theorem crate_pairs_item_ids :
    ∀ (crate : List Item) (k : Nat) (sols : List Variance) q,
      q ∈ crate_pairs crate k sols → q.1.item_id ∈ crate.map Item.id := by
  intro crate
  induction crate with
  | nil => intro k sols q hq; simp [crate_pairs] at hq
  | cons it rest ih =>
    intro k sols q hq
    simp only [crate_pairs, List.mem_append] at hq
    rcases hq with hq | hq
    · have h1 := (List.of_mem_zip hq).1
      have h2 := item_expected_infos_item_id it k q.1 h1
      simp [h2]
    · have := ih _ _ q hq
      simp only [List.map_cons, List.mem_cons]
      exact Or.inr this

/-- The record the publisher must produce for an item whose contiguous
inferred block starts at solution index `k0`, when the final solution
vector is `sols`: for a trait, slot `k0` is `Self`; position `i` of
`region_params` is the solution of the item's i-th declared lifetime
parameter, and position `i` of `type_params` the solution of its i-th
declared type parameter — declaration order throughout. -/
def expected_entry (item : Item) (k0 : Nat) (sols : List Variance) :
    ItemVariances :=
  let soff : Nat := if is_trait_node item.node then 1 else 0
  { self_param :=
      if is_trait_node item.node then some (sols.getD k0 .Bivariant)
      else none,
    type_params := (List.range (decl_ty_params item).length).map
      (fun i => sols.getD
        (k0 + soff + (decl_lifetimes item).length + i) .Bivariant),
    region_params := (List.range (decl_lifetimes item).length).map
      (fun i => sols.getD (k0 + soff + i) .Bivariant) }

theorem expected_entry_of_empty (item : Item) (k0 : Nat)
    (sols : List Variance) (hnt : is_trait_node item.node = false)
    (hlt : decl_lifetimes item = []) (htp : decl_ty_params item = []) :
    expected_entry item k0 sols = empty_item_variances := by
  simp [expected_entry, hnt, hlt, htp, empty_item_variances]

theorem getD_drop (l : List Variance) :
    ∀ (n i : Nat) (d : Variance), (l.drop n).getD i d = l.getD (n + i) d := by
  induction l with
  | nil => intro n i d; simp
  | cons a t ih =>
    intro n i d
    cases n with
    | zero => simp
    | succ m =>
      rw [List.drop_succ_cons, ih m i d]
      have he : m + 1 + i = (m + i) + 1 := by omega
      rw [he, List.getD_cons_succ]

theorem drop_take_eq_map_range (sols : List Variance) (a n : Nat)
    (h : a + n ≤ sols.length) :
    (sols.drop a).take n =
      (List.range n).map (fun i => sols.getD (a + i) .Bivariant) := by
  apply List.ext_getElem
  · simp only [List.length_take, List.length_drop, List.length_map,
      List.length_range]
    omega
  · intro i h1 h2
    simp only [List.length_take, List.length_drop] at h1
    simp only [List.getElem_take, List.getElem_drop, List.getElem_map,
      List.getElem_range]
    rw [List.getD_eq_getElem sols .Bivariant (by omega)]

theorem zipWith_prod_eq_zip {α β : Type} (l : List α) (s : List β) :
    List.zipWith Prod.mk l s = l.zip s := rfl

theorem push_fold_region (iid : NodeId) :
    ∀ (ps : List NodeId) (j k : Nat) (s : List Variance)
      (iv0 : ItemVariances), ps.length ≤ s.length →
      ((expected_infos iid .RegionParam ps j k).zip s).foldlM
        (fun iv q => push_info iv q.1 q.2) iv0 =
      .ok { iv0 with
        region_params := iv0.region_params ++ s.take ps.length } := by
  intro ps
  induction ps with
  | nil =>
    intro j k s iv0 _
    simp [expected_infos, List.foldlM, pure, Except.pure]
  | cons p ps ih =>
    intro j k s iv0 h
    cases s with
    | nil => simp at h
    | cons v s' =>
      simp only [expected_infos, List.zip_cons_cons, List.foldlM]
      have hp : push_info iv0
          { item_id := iid, kind := .RegionParam, index := j, param_id := p,
            term := .InferredTerm k } v =
          .ok { iv0 with region_params := iv0.region_params ++ [v] } := rfl
      rw [hp]
      simp only [bind, Except.bind]
      (try rw [zipWith_prod_eq_zip])
      rw [ih (j + 1) (k + 1) s' _ (by simpa using h)]
      simp [List.take_succ_cons, List.append_assoc]

theorem push_fold_type (iid : NodeId) :
    ∀ (ps : List NodeId) (j k : Nat) (s : List Variance)
      (iv0 : ItemVariances), ps.length ≤ s.length →
      ((expected_infos iid .TypeParam ps j k).zip s).foldlM
        (fun iv q => push_info iv q.1 q.2) iv0 =
      .ok { iv0 with
        type_params := iv0.type_params ++ s.take ps.length } := by
  intro ps
  induction ps with
  | nil =>
    intro j k s iv0 _
    simp [expected_infos, List.foldlM, pure, Except.pure]
  | cons p ps ih =>
    intro j k s iv0 h
    cases s with
    | nil => simp at h
    | cons v s' =>
      simp only [expected_infos, List.zip_cons_cons, List.foldlM]
      have hp : push_info iv0
          { item_id := iid, kind := .TypeParam, index := j, param_id := p,
            term := .InferredTerm k } v =
          .ok { iv0 with type_params := iv0.type_params ++ [v] } := rfl
      rw [hp]
      simp only [bind, Except.bind]
      (try rw [zipWith_prod_eq_zip])
      rw [ih (j + 1) (k + 1) s' _ (by simpa using h)]
      simp [List.take_succ_cons, List.append_assoc]

theorem push_fold_block (item : Item) (k0 : Nat) (sols : List Variance)
    (h : k0 + item_num_inferred item ≤ sols.length) :
    ((item_expected_infos item k0).zip (sols.drop k0)).foldlM
      (fun iv q => push_info iv q.1 q.2) empty_item_variances =
    .ok (expected_entry item k0 sols) := by
  rw [item_num_inferred_eq] at h
  obtain ⟨id, node⟩ := item
  cases node with
  | item_enum g variants =>
    have h' : k0 + g.lifetimes.length + g.ty_params.length ≤
        sols.length := by
      simp [is_trait_node, decl_lifetimes, decl_ty_params] at h
      omega
    simp only [item_expected_infos]
    rw [zip_append_exact (expected_infos id .RegionParam g.lifetimes 0 k0)
      (sols.drop k0)
      (expected_infos id .TypeParam g.ty_params 0 (k0 + g.lifetimes.length))
      (by rw [expected_infos_length]; simp only [List.length_drop]; omega)]
    rw [zip_take_eq, expected_infos_length]
    rw [List.foldlM_append]
    rw [push_fold_region id g.lifetimes 0 k0 (sols.drop k0)
      empty_item_variances (by simp only [List.length_drop]; omega)]
    simp only [bind, Except.bind]
    rw [List.drop_drop]
    rw [push_fold_type id g.ty_params 0 (k0 + g.lifetimes.length)
      (sols.drop (k0 + g.lifetimes.length))
      { empty_item_variances with
        region_params := empty_item_variances.region_params ++
          (sols.drop k0).take g.lifetimes.length }
      (by simp only [List.length_drop]; omega)]
    simp only [empty_item_variances, List.nil_append]
    rw [drop_take_eq_map_range sols k0 g.lifetimes.length (by omega)]
    rw [drop_take_eq_map_range sols (k0 + g.lifetimes.length)
      g.ty_params.length (by omega)]
    simp [expected_entry, is_trait_node, decl_lifetimes, decl_ty_params]
  | item_struct g fields =>
    have h' : k0 + g.lifetimes.length + g.ty_params.length ≤
        sols.length := by
      simp [is_trait_node, decl_lifetimes, decl_ty_params] at h
      omega
    simp only [item_expected_infos]
    rw [zip_append_exact (expected_infos id .RegionParam g.lifetimes 0 k0)
      (sols.drop k0)
      (expected_infos id .TypeParam g.ty_params 0 (k0 + g.lifetimes.length))
      (by rw [expected_infos_length]; simp only [List.length_drop]; omega)]
    rw [zip_take_eq, expected_infos_length]
    rw [List.foldlM_append]
    rw [push_fold_region id g.lifetimes 0 k0 (sols.drop k0)
      empty_item_variances (by simp only [List.length_drop]; omega)]
    simp only [bind, Except.bind]
    rw [List.drop_drop]
    rw [push_fold_type id g.ty_params 0 (k0 + g.lifetimes.length)
      (sols.drop (k0 + g.lifetimes.length))
      { empty_item_variances with
        region_params := empty_item_variances.region_params ++
          (sols.drop k0).take g.lifetimes.length }
      (by simp only [List.length_drop]; omega)]
    simp only [empty_item_variances, List.nil_append]
    rw [drop_take_eq_map_range sols k0 g.lifetimes.length (by omega)]
    rw [drop_take_eq_map_range sols (k0 + g.lifetimes.length)
      g.ty_params.length (by omega)]
    simp [expected_entry, is_trait_node, decl_lifetimes, decl_ty_params]
  | item_trait g methods =>
    have h' : k0 + 1 + g.lifetimes.length + g.ty_params.length ≤
        sols.length := by
      simp [is_trait_node, decl_lifetimes, decl_ty_params] at h
      omega
    cases hs : sols.drop k0 with
    | nil =>
      have hz : sols.length - k0 = 0 := by
        have := congrArg List.length hs
        simpa [List.length_drop] using this
      omega
    | cons v0 s' =>
      have hv0 : v0 = sols.getD k0 .Bivariant := by
        have h1 : (sols.drop k0).getD 0 .Bivariant =
            sols.getD (k0 + 0) .Bivariant := getD_drop sols k0 0 .Bivariant
        rw [hs, List.getD_cons_zero] at h1
        exact h1
      have hs' : s' = sols.drop (k0 + 1) := by
        have h1 : (sols.drop k0).drop 1 = sols.drop (k0 + 1) :=
          List.drop_drop 1 k0 sols
        rw [hs, List.drop_succ_cons, List.drop_zero] at h1
        exact h1
      have hs'len : s'.length = sols.length - (k0 + 1) := by
        rw [hs']; simp [List.length_drop]
      have hzc : (item_expected_infos ⟨id, .item_trait g methods⟩ k0).zip
          (v0 :: s') =
          ({ item_id := id, kind := .SelfParam, index := 0, param_id := id,
             term := .InferredTerm k0 }, v0) ::
          (expected_infos id .RegionParam g.lifetimes 0 (k0 + 1) ++
            expected_infos id .TypeParam g.ty_params 0
              (k0 + 1 + g.lifetimes.length)).zip s' := rfl
      rw [hzc]
      simp only [List.foldlM]
      have hp : push_info empty_item_variances
          { item_id := id, kind := .SelfParam, index := 0, param_id := id,
            term := .InferredTerm k0 } v0 =
          .ok { empty_item_variances with self_param := some v0 } := rfl
      rw [hp]
      simp only [bind, Except.bind]
      rw [zip_append_exact
        (expected_infos id .RegionParam g.lifetimes 0 (k0 + 1)) s'
        (expected_infos id .TypeParam g.ty_params 0
          (k0 + 1 + g.lifetimes.length))
        (by rw [expected_infos_length]; omega)]
      rw [zip_take_eq, expected_infos_length]
      rw [List.foldlM_append]
      rw [push_fold_region id g.lifetimes 0 (k0 + 1) s' _ (by omega)]
      simp only [bind, Except.bind]
      rw [hs', List.drop_drop]
      rw [push_fold_type id g.ty_params 0 (k0 + 1 + g.lifetimes.length)
        (sols.drop (k0 + 1 + g.lifetimes.length)) _
        (by simp only [List.length_drop]; omega)]
      simp only [empty_item_variances, List.nil_append]
      rw [drop_take_eq_map_range sols (k0 + 1) g.lifetimes.length
        (by omega)]
      rw [drop_take_eq_map_range sols (k0 + 1 + g.lifetimes.length)
        g.ty_params.length (by omega)]
      simp [expected_entry, is_trait_node, decl_lifetimes, decl_ty_params,
        hv0, Nat.add_assoc]
  | item_impl =>
    simp [item_expected_infos, List.zip_nil_left, List.foldlM, pure,
      Except.pure, expected_entry, is_trait_node, decl_lifetimes,
      decl_ty_params, empty_item_variances]
  | item_static =>
    simp [item_expected_infos, List.zip_nil_left, List.foldlM, pure,
      Except.pure, expected_entry, is_trait_node, decl_lifetimes,
      decl_ty_params, empty_item_variances]
  | item_fn =>
    simp [item_expected_infos, List.zip_nil_left, List.foldlM, pure,
      Except.pure, expected_entry, is_trait_node, decl_lifetimes,
      decl_ty_params, empty_item_variances]
  | item_mod =>
    simp [item_expected_infos, List.zip_nil_left, List.foldlM, pure,
      Except.pure, expected_entry, is_trait_node, decl_lifetimes,
      decl_ty_params, empty_item_variances]
  | item_foreign_mod =>
    simp [item_expected_infos, List.zip_nil_left, List.foldlM, pure,
      Except.pure, expected_entry, is_trait_node, decl_lifetimes,
      decl_ty_params, empty_item_variances]
  | item_ty =>
    simp [item_expected_infos, List.zip_nil_left, List.foldlM, pure,
      Except.pure, expected_entry, is_trait_node, decl_lifetimes,
      decl_ty_params, empty_item_variances]
  | item_mac =>
    simp [item_expected_infos, List.zip_nil_left, List.foldlM, pure,
      Except.pure, expected_entry, is_trait_node, decl_lifetimes,
      decl_ty_params, empty_item_variances]
theorem write_crate :
    ∀ (crate : List Item) (k : Nat) (sols : List Variance)
      (map0 res : List (NodeId × ItemVariances)),
      (crate_infos crate k).length ≤ sols.length →
      (crate.map Item.id).Nodup →
      (∀ it, it ∈ crate → item_allocates it = true →
        map0.lookup it.id = none) →
      write_loop (crate_pairs crate k sols) map0 = .ok res →
      (∀ id : NodeId, res.countP (fun e => e.1 == id) =
        crate.countP (fun it => item_allocates it && (it.id == id)) +
          map0.countP (fun e => e.1 == id)) ∧
      (∀ (id : NodeId) (iv : ItemVariances), (id, iv) ∈ res →
        (id, iv) ∈ map0 ∨
        ∃ it d pre post, it ∈ crate ∧ item_allocates it = true ∧
          it.id = id ∧
          iv.type_params.length = (decl_ty_params it).length ∧
          iv.region_params.length = (decl_lifetimes it).length ∧
          (iv.self_param.isSome = true ↔ is_trait_node it.node = true) ∧
          crate_infos crate k =
            pre ++ item_expected_infos it (k + d) ++ post ∧
          pre.length = d ∧
          ((item_expected_infos it (k + d)).zip (sols.drop d)).foldlM
            (fun iv2 q => push_info iv2 q.1 q.2) empty_item_variances =
            .ok iv) := by
  intro crate
  induction crate with
  | nil =>
    intro k sols map0 res hlen hnodup hfresh h
    simp only [crate_pairs] at h
    simp only [write_loop] at h
    injection h with h
    subst h
    exact ⟨fun id => by simp, fun id iv hm => Or.inl hm⟩
  | cons it rest ih =>
    intro k sols map0 res hlen hnodup hfresh h
    simp only [crate_infos, List.length_append] at hlen
    simp only [List.map_cons, List.nodup_cons] at hnodup
    obtain ⟨hnodup1, hnodup2⟩ := hnodup
    by_cases halloc : item_allocates it = true
    · -- the item allocates a nonempty block
      have hnz : (item_expected_infos it k).length ≠ 0 := by
        rw [item_expected_infos_length]
        simpa [item_allocates] using halloc
      cases hb : item_expected_infos it k with
      | nil => rw [hb] at hnz; simp at hnz
      | cons i0 btail =>
        cases hsols : sols with
        | nil =>
          rw [hb, hsols] at hlen
          simp at hlen
        | cons v0 stail =>
          simp only [crate_pairs] at h
          rw [hb, hsols] at h hlen
          simp only [List.zip_cons_cons, List.cons_append] at h
          have hid0 : i0.item_id = it.id := by
            apply item_expected_infos_item_id it k
            rw [hb]
            exact List.mem_cons_self _ _
          -- the grouping predicate holds on the whole block and fails at
          -- the head of the remaining pairs
          have hbtail : ∀ q ∈ btail.zip stail,
              (q.1.item_id == i0.item_id) = true := by
            intro q hq
            have h1 := (List.of_mem_zip hq).1
            have h2 : q.1.item_id = it.id := by
              apply item_expected_infos_item_id it k
              rw [hb]
              exact List.mem_cons_of_mem _ h1
            simp [h2, hid0]
          have hrest_take :
              (crate_pairs rest (k + (i0 :: btail).length)
                ((v0 :: stail).drop (i0 :: btail).length)).takeWhile
                (fun q => q.1.item_id == i0.item_id) = [] := by
            cases hrp : crate_pairs rest (k + (i0 :: btail).length)
                ((v0 :: stail).drop (i0 :: btail).length) with
            | nil => rfl
            | cons q2 t2 =>
              have hq2 : q2.1.item_id ∈ rest.map Item.id := by
                apply crate_pairs_item_ids rest _ _ q2
                rw [hrp]
                exact List.mem_cons_self _ _
              have hne : (q2.1.item_id == i0.item_id) = false := by
                simp only [beq_eq_false_iff_ne, ne_eq, hid0]
                intro hc
                exact hnodup1 (hc ▸ hq2)
              simp [List.takeWhile_cons, hne]
          have hrest_drop :
              (crate_pairs rest (k + (i0 :: btail).length)
                ((v0 :: stail).drop (i0 :: btail).length)).dropWhile
                (fun q => q.1.item_id == i0.item_id) =
              crate_pairs rest (k + (i0 :: btail).length)
                ((v0 :: stail).drop (i0 :: btail).length) := by
            cases hrp : crate_pairs rest (k + (i0 :: btail).length)
                ((v0 :: stail).drop (i0 :: btail).length) with
            | nil => rfl
            | cons q2 t2 =>
              have hq2 : q2.1.item_id ∈ rest.map Item.id := by
                apply crate_pairs_item_ids rest _ _ q2
                rw [hrp]
                exact List.mem_cons_self _ _
              have hne : (q2.1.item_id == i0.item_id) = false := by
                simp only [beq_eq_false_iff_ne, ne_eq, hid0]
                intro hc
                exact hnodup1 (hc ▸ hq2)
              simp [List.dropWhile_cons, hne]
          simp only [write_loop] at h
          rw [takeWhile_append_all _ _ _ hbtail, hrest_take,
            dropWhile_append_all _ _ _ hbtail, hrest_drop,
            List.append_nil] at h
          simp only [bind, Except.bind] at h
          cases hfold : ((i0, v0) :: btail.zip stail).foldlM
              (fun iv q => push_info iv q.1 q.2) empty_item_variances with
          | error e => rw [hfold] at h; cases h
          | ok iv =>
            rw [hfold] at h
            dsimp only at h
            have hlook : map0.lookup i0.item_id = none := by
              rw [hid0]
              exact hfresh it (List.mem_cons_self _ _) halloc
            rw [hlook] at h
            simp only [Option.isSome_none, Bool.false_eq_true, if_false] at h
            rw [hid0] at h
            have hlen2 : (crate_infos rest (k + (i0 :: btail).length)).length
                ≤ ((v0 :: stail).drop (i0 :: btail).length).length := by
              simp only [List.length_drop]
              simp only [List.length_cons] at hlen ⊢
              omega
            have hfresh2 : ∀ it2, it2 ∈ rest →
                item_allocates it2 = true →
                ((it.id, iv) :: map0).lookup it2.id = none := by
              intro it2 hmem2 halloc2
              have hne : (it2.id == it.id) = false := by
                simp only [beq_eq_false_iff_ne, ne_eq]
                intro hc
                exact hnodup1 (hc ▸ List.mem_map_of_mem Item.id hmem2)
              simp only [List.lookup, hne]
              exact hfresh it2 (List.mem_cons_of_mem _ hmem2) halloc2
            obtain ⟨ihc, ihm⟩ := ih (k + (i0 :: btail).length)
              ((v0 :: stail).drop (i0 :: btail).length)
              ((it.id, iv) :: map0) res hlen2 hnodup2 hfresh2 h
            -- characterize the published record of this item
            obtain ⟨hc1, hc2, hc3⟩ := push_fold_char
              ((i0, v0) :: btail.zip stail) empty_item_variances iv hfold
            have hgz : (i0, v0) :: btail.zip stail =
                (i0 :: btail).zip (v0 :: stail) := rfl
            have hblen : (i0 :: btail).length ≤ (v0 :: stail).length := by
              simp only [List.length_cons] at hlen ⊢
              omega
            have hczt : ((i0 :: btail).zip (v0 :: stail)).countP
                (fun q => q.1.kind == ParamKind.TypeParam) =
                (i0 :: btail).countP
                  (fun i => i.kind == ParamKind.TypeParam) :=
              countP_zip_left (fun i => i.kind == ParamKind.TypeParam)
                (i0 :: btail) (v0 :: stail) hblen
            have hczr : ((i0 :: btail).zip (v0 :: stail)).countP
                (fun q => q.1.kind == ParamKind.RegionParam) =
                (i0 :: btail).countP
                  (fun i => i.kind == ParamKind.RegionParam) :=
              countP_zip_left (fun i => i.kind == ParamKind.RegionParam)
                (i0 :: btail) (v0 :: stail) hblen
            have hiv_tp : iv.type_params.length =
                (decl_ty_params it).length := by
              rw [hc1, hgz, hczt, ← hb, item_expected_infos_count_type]
              simp [empty_item_variances]
            have hiv_rg : iv.region_params.length =
                (decl_lifetimes it).length := by
              rw [hc2, hgz, hczr, ← hb, item_expected_infos_count_region]
              simp [empty_item_variances]
            have hiv_self : iv.self_param.isSome = true ↔
                is_trait_node it.node = true := by
              rw [hc3]
              simp only [empty_item_variances, Option.isSome_none,
                Bool.false_eq_true, false_or]
              rw [← item_expected_infos_self it k, hb]
              constructor
              · rintro ⟨q, hq, hqk⟩
                rw [hgz] at hq
                exact ⟨q.1, (List.of_mem_zip hq).1, hqk⟩
              · rintro ⟨info, hinfo, hik⟩
                obtain ⟨b, hbmem⟩ :=
                  mem_zip_of_mem_left (i0 :: btail) (v0 :: stail) info
                    hblen hinfo
                rw [hgz]
                exact ⟨(info, b), hbmem, hik⟩
            constructor
            · intro id
              rw [ihc id]
              simp only [List.countP_cons, halloc, Bool.true_and]
              omega
            · intro id iv2 hm
              rcases ihm id iv2 hm with hm0 |
                ⟨it2, d2, pre2, post2, hmem2, p1, p2, p3, p4, p5, heq2, hpl2,
                  hf2⟩
              · rcases List.mem_cons.mp hm0 with heq | hm1
                · injection heq with e1 e2
                  subst e2
                  refine Or.inr ⟨it, 0, [],
                    crate_infos rest (k + (item_expected_infos it k).length),
                    List.mem_cons_self _ _, halloc, e1.symm,
                    hiv_tp, hiv_rg, hiv_self, ?_, rfl, ?_⟩
                  · simp [crate_infos]
                  · simp only [Nat.add_zero, List.drop_zero, hb]
                    exact hfold
                · exact Or.inl hm1
              · refine Or.inr ⟨it2, (i0 :: btail).length + d2,
                  item_expected_infos it k ++ pre2, post2,
                  List.mem_cons_of_mem _ hmem2, p1, p2, p3, p4, p5, ?_, ?_,
                  ?_⟩
                · simp only [crate_infos]
                  rw [hb, heq2]
                  simp [List.append_assoc, Nat.add_assoc]
                · rw [hb]
                  simp only [List.length_append]
                  omega
                · rw [List.drop_drop, Nat.add_assoc] at hf2
                  exact hf2
    · -- the item allocates nothing: its block is empty
      have hz : (item_expected_infos it k).length = 0 := by
        rw [item_expected_infos_length]
        revert halloc
        simp [item_allocates]
      have hb : item_expected_infos it k = [] := List.length_eq_zero.mp hz
      have hf : item_allocates it = false := by
        revert halloc
        cases item_allocates it <;> simp
      simp only [crate_pairs] at h
      rw [hb] at h hlen
      simp only [List.zip_nil_left, List.nil_append, List.length_nil,
        Nat.add_zero, List.drop_zero, Nat.zero_add] at h hlen
      obtain ⟨ihc, ihm⟩ := ih k sols map0 res hlen hnodup2
        (fun it2 hm2 ha2 => hfresh it2 (List.mem_cons_of_mem _ hm2) ha2) h
      constructor
      · intro id
        rw [ihc id]
        simp [List.countP_cons, hf]
      · intro id iv hm
        rcases ihm id iv hm with hm0 |
          ⟨it2, d2, pre2, post2, hmem2, p1, p2, p3, p4, p5, heq2, hpl2, hf2⟩
        · exact Or.inl hm0
        · refine Or.inr ⟨it2, d2, pre2, post2,
            List.mem_cons_of_mem _ hmem2, p1, p2, p3, p4, p5, ?_, hpl2, hf2⟩
          simp only [crate_infos, hb, List.nil_append, List.length_nil,
            Nat.add_zero]
          exact heq2

theorem decl_of_generics (item : Item) (g : Generics)
    (hg : node_generics item.node = some g) :
    decl_ty_params item = g.ty_params ∧ decl_lifetimes item = g.lifetimes := by
  obtain ⟨id, node⟩ := item
  cases node <;> simp [node_generics] at hg <;>
    simp [decl_ty_params, decl_lifetimes, hg]

theorem installs_of_empty_generics (item : Item) (g : Generics)
    (hg : node_generics item.node = some g)
    (hnt : is_trait_node item.node = false)
    (hlt : g.lifetimes = []) (htp : g.ty_params = []) :
    installs_empty item = true := by
  obtain ⟨id, node⟩ := item
  cases node <;> simp [node_generics] at hg
  case item_enum g0 variants =>
    subst hg; simp [installs_empty, hlt, htp]
  case item_struct g0 fields =>
    subst hg; simp [installs_empty, hlt, htp]
  case item_trait g0 methods =>
    simp [is_trait_node] at hnt

theorem countP_id_unique (crate : List Item) (item : Item)
    (hids : (crate.map Item.id).Nodup) (hmem : item ∈ crate) :
    crate.countP (fun it2 => it2.id == item.id) = 1 := by
  have h1 : (crate.map Item.id).count item.id = 1 :=
    List.count_eq_one_of_mem hids (List.mem_map_of_mem Item.id hmem)
  rw [List.count_eq_countP, List.countP_map] at h1
  exact h1

theorem countP_restrict (crate : List Item) (item : Item)
    (hids : (crate.map Item.id).Nodup) (hmem : item ∈ crate)
    (b : Item → Bool) (hb : b item = true) :
    crate.countP (fun it2 => b it2 && (it2.id == item.id)) =
      crate.countP (fun it2 => it2.id == item.id) := by
  apply List.countP_congr
  intro it2 hit2
  by_cases hid : it2.id = item.id
  · have heq : it2 = item := nodup_map_inj hids it2 hit2 item hmem hid
    subst heq
    simp [hb]
  · simp [hid]

/-- C7: after the pass completes, every variance-bearing item of the
crate has exactly one entry in the published variance map; that entry
lists, in declaration order, one variance per declared type parameter and
one per declared lifetime parameter, and has a self entry iff the item is
a trait. Declaration order is stated exactly: the item owns a contiguous
block of the indexer's inferred list starting at some position `k0`, and
the published entry equals `expected_entry item k0 sols`, whose
`region_params` position `i` is the solved variance of the item's i-th
declared lifetime (solution cell `k0 + soff + i`) and whose `type_params`
position `i` is that of its i-th declared type parameter. An enum or
struct declaring no generics receives the empty entry already during
indexing. -/
theorem claim_C7_publication
    (ig tg : DefId → ItemGenerics) (ev : DefId → ItemVariances)
    (crate : List Item) (result : List (NodeId × ItemVariances))
    (h : infer_variance ig tg ev crate = .ok result)
    (hids : (crate.map Item.id).Nodup)
    (item : Item) (hmem : item ∈ crate) (g : Generics)
    (hg : node_generics item.node = some g) :
    result.countP (fun e => e.1 == item.id) = 1 ∧
    (∀ iv : ItemVariances, (item.id, iv) ∈ result →
      iv.type_params.length = g.ty_params.length ∧
      iv.region_params.length = g.lifetimes.length ∧
      (iv.self_param.isSome = true ↔ is_trait_node item.node = true)) ∧
    (∃ tcx cs, determine_parameters_to_be_inferred crate = .ok tcx ∧
      add_constraints_from_crate
        { terms_cx := tcx, item_generics := ig, trait_generics := tg,
          external_variances := ev } crate = .ok cs ∧
      ∀ iv : ItemVariances, (item.id, iv) ∈ result →
        ∃ k0 pre post,
          tcx.inferred_infos =
            pre ++ item_expected_infos item k0 ++ post ∧
          pre.length = k0 ∧
          iv = expected_entry item k0
            (solve cs (init_solutions tcx.num_inferred))) ∧
    (g.lifetimes = [] → g.ty_params = [] →
      is_trait_node item.node = false →
      ∀ tcx : TermsContext,
        determine_parameters_to_be_inferred crate = .ok tcx →
        (item.id, empty_item_variances) ∈ tcx.item_variance_map) := by
  obtain ⟨hdty, hdlt⟩ := decl_of_generics item g hg
  simp only [infer_variance, bind, Except.bind] at h
  cases hdet : determine_parameters_to_be_inferred crate with
  | error e => rw [hdet] at h; cases h
  | ok tcx =>
    rw [hdet] at h
    dsimp only at h
    cases hgen : add_constraints_from_crate
        { terms_cx := tcx, item_generics := ig, trait_generics := tg,
          external_variances := ev } crate with
    | error e => rw [hgen] at h; cases h
    | ok cs =>
      rw [hgen] at h
      dsimp only at h
      simp only [solve_constraints] at h
      have hchar := foldlM_visit_char crate
        { inferred_map := [], inferred_infos := [], item_variance_map := [] }
        tcx hdet
      have hinfos : tcx.inferred_infos = crate_infos crate 0 := by
        have := hchar.1
        simpa using this
      have hmap : tcx.item_variance_map = crate_entries_acc crate [] := by
        have := hchar.2
        simpa using this
      have hslen : (solve cs (init_solutions tcx.num_inferred)).length =
          (crate_infos crate 0).length := by
        rw [solve_length, length_init, TermsContext.num_inferred, hinfos]
      have hle : (crate_infos crate 0).length ≤
          (solve cs (init_solutions tcx.num_inferred)).length :=
        le_of_eq hslen.symm
      rw [hinfos, hmap,
        ← crate_pairs_eq_zip crate 0
          (solve cs (init_solutions tcx.num_inferred)) hle] at h
      have hfresh : ∀ it2, it2 ∈ crate → item_allocates it2 = true →
          (crate_entries_acc crate []).lookup it2.id = none := by
        intro it2 hmem2 halloc2
        apply lookup_eq_none_entries
        intro e he hc
        have hm := (crate_entries_acc_mem crate [] e.1 e.2).mp he
        rcases hm with hm | ⟨it3, hmem3, hinst3, hid3, _⟩
        · cases hm
        · have : it3 = it2 :=
            nodup_map_inj hids it3 hmem3 it2 hmem2 (by rw [hid3, hc])
          subst this
          rw [installs_not_allocates it3 hinst3] at halloc2
          cases halloc2
      obtain ⟨hcount, hmemres⟩ := write_crate crate 0
        (solve cs (init_solutions tcx.num_inferred))
        (crate_entries_acc crate []) result hle hids hfresh h
      refine ⟨?_, ?_, ?_, ?_⟩
      · -- exactly one entry
        rw [hcount item.id,
          crate_entries_acc_countP (fun e => e.1 == item.id) crate []]
        by_cases halloc : item_allocates item = true
        · have h1 : crate.countP
              (fun it2 => item_allocates it2 && (it2.id == item.id)) = 1 := by
            rw [countP_restrict crate item hids hmem _ halloc]
            exact countP_id_unique crate item hids hmem
          have h2 : crate.countP
              (fun it2 => installs_empty it2 &&
                ((it2.id, empty_item_variances).1 == item.id)) = 0 := by
            rw [List.countP_eq_zero]
            intro it3 hmem3 hp
            simp only [Bool.and_eq_true, beq_iff_eq] at hp
            have : it3 = item := nodup_map_inj hids it3 hmem3 item hmem hp.2
            subst this
            rw [installs_not_allocates it3 hp.1] at halloc
            cases halloc
          rw [h1, h2]
          simp
        · have hinst : installs_empty item = true := by
            rcases bearing_installs_or_allocates item g hg with hi | ha
            · exact hi
            · exact absurd ha halloc
          have h1 : crate.countP
              (fun it2 => item_allocates it2 && (it2.id == item.id)) = 0 := by
            rw [List.countP_eq_zero]
            intro it3 hmem3 hp
            simp only [Bool.and_eq_true, beq_iff_eq] at hp
            have : it3 = item := nodup_map_inj hids it3 hmem3 item hmem hp.2
            subst this
            exact halloc hp.1
          have h2 : crate.countP
              (fun it2 => installs_empty it2 &&
                ((it2.id, empty_item_variances).1 == item.id)) = 1 := by
            have := countP_restrict crate item hids hmem installs_empty hinst
            rw [← countP_id_unique crate item hids hmem]
            exact this
          rw [h1, h2]
          simp
      · -- the entry has the declared shapes
        intro iv hmemiv
        rcases hmemres item.id iv hmemiv with hm0 |
          ⟨it2, d2, pre2, post2, hmem2, halloc2, hid2, htp2, hlt2, hself2,
            _, _, _⟩
        · -- the empty entry installed during indexing
          have hm := (crate_entries_acc_mem crate [] item.id iv).mp hm0
          rcases hm with hm | ⟨it3, hmem3, hinst3, hid3, hiv3⟩
          · cases hm
          · have : it3 = item :=
              nodup_map_inj hids it3 hmem3 item hmem hid3
            subst this
            obtain ⟨he1, he2, he3⟩ := installs_generics_empty it3 hinst3
            subst hiv3
            refine ⟨?_, ?_, ?_⟩
            · simp [empty_item_variances, ← hdty, he2]
            · simp [empty_item_variances, ← hdlt, he1]
            · simp [empty_item_variances, he3]
        · have : it2 = item := nodup_map_inj hids it2 hmem2 item hmem hid2
          subst this
          exact ⟨by rw [htp2, hdty], by rw [hlt2, hdlt], hself2⟩
      · -- declaration-order correspondence of the published entry
        refine ⟨tcx, cs, rfl, hgen, ?_⟩
        intro iv hmemiv
        rcases hmemres item.id iv hmemiv with hm0 |
          ⟨it2, d2, pre2, post2, hmem2, halloc2, hid2, _, _, _, heq2, hpl2,
            hf2⟩
        · -- the empty entry installed during indexing: block at k0 = 0
          have hm := (crate_entries_acc_mem crate [] item.id iv).mp hm0
          rcases hm with hm | ⟨it3, hmem3, hinst3, hid3, hiv3⟩
          · cases hm
          · have he0 : it3 = item :=
              nodup_map_inj hids it3 hmem3 item hmem hid3
            subst he0
            obtain ⟨he1, he2, he3⟩ := installs_generics_empty it3 hinst3
            have hblock : item_expected_infos it3 0 = [] := by
              apply List.length_eq_zero.mp
              rw [item_expected_infos_length, item_num_inferred_eq, he3,
                he1, he2]
              simp
            subst hiv3
            refine ⟨0, [], tcx.inferred_infos, ?_, rfl, ?_⟩
            · rw [hblock]
              simp
            · exact (expected_entry_of_empty it3 0
                (solve cs (init_solutions tcx.num_inferred))
                he3 he1 he2).symm
        · have he0 : it2 = item := nodup_map_inj hids it2 hmem2 item hmem hid2
          subst he0
          rw [Nat.zero_add] at heq2 hf2
          refine ⟨d2, pre2, post2, ?_, hpl2, ?_⟩
          · rw [hinfos]
            exact heq2
          · have hbound : d2 + item_num_inferred it2 ≤
                (solve cs (init_solutions tcx.num_inferred)).length := by
              have h1 := congrArg List.length heq2
              simp only [List.length_append, item_expected_infos_length]
                at h1
              rw [hslen, h1]
              omega
            have hpfb := push_fold_block it2 d2
              (solve cs (init_solutions tcx.num_inferred)) hbound
            rw [hf2] at hpfb
            injection hpfb with hq
      · -- the empty entry is installed during indexing
        intro hlt htp hnt tcx' hdet'
        have htcx : tcx' = tcx := by
          injection hdet' with h2
          exact h2.symm
        subst htcx
        rw [hmap]
        apply (crate_entries_acc_mem crate [] item.id
          empty_item_variances).mpr
        exact Or.inr ⟨item, hmem,
          installs_of_empty_generics item g hg hnt hlt htp, rfl, rfl⟩

/-- Witness for C7: the `OptMap` crate, whose single enum publishes
exactly one entry. -/
theorem claim_C7_witness :
    (infer_variance no_item_generics no_item_generics no_external_variances
        [opt_map_item]
      = .ok [(1, { self_param := none, type_params := [.Invariant],
                   region_params := [] })]) ∧
    ([opt_map_item].map Item.id).Nodup ∧
    opt_map_item ∈ [opt_map_item] ∧
    node_generics opt_map_item.node = some ⟨[], [2]⟩ ∧
    ([((1 : NodeId),
        ({ self_param := none, type_params := [.Invariant],
           region_params := [] } : ItemVariances))].countP
      (fun e => e.1 == opt_map_item.id) = 1) := by
  have hev : infer_variance no_item_generics no_item_generics
      no_external_variances [opt_map_item]
      = .ok [(1, { self_param := none, type_params := [.Invariant],
                   region_params := [] })] := by
    simp [infer_variance, determine_parameters_to_be_inferred,
      terms_visit_item, TermsContext.add_inferred, TermsContext.num_inferred,
      add_constraints_from_crate, ConstraintContext.visit_item,
      ConstraintContext.add_constraints_from_ty,
      ConstraintContext.add_constraints_from_ty_list,
      ConstraintContext.add_constraints_from_sig,
      ConstraintContext.inferred_index, add_constraint, opt_map_item,
      contravariant_xform, cc_xform, covariant_term, contravariant_term,
      constant_term, xform, List.foldlM, List.lookup, bind, Except.bind,
      pure, Except.pure, LOCAL_CRATE,
      solve_constraints, solve, solve_pass, solve_step, evaluate, glb,
      init_solutions, write_loop, push_info, empty_item_variances,
      List.takeWhile, List.dropWhile]
  have hids : ([opt_map_item].map Item.id).Nodup := by simp
  have hmemw : opt_map_item ∈ [opt_map_item] := List.mem_cons_self _ _
  have hgw : node_generics opt_map_item.node = some ⟨[], [2]⟩ := rfl
  refine ⟨hev, hids, hmemw, hgw, ?_⟩
  exact (claim_C7_publication no_item_generics no_item_generics
    no_external_variances [opt_map_item] _ hev hids opt_map_item hmemw
    ⟨[], [2]⟩ hgw).1
